import Mathlib

/-!
Verification development for the `FracND` sliding-window box-counting core of
the MRI-Tools repository (`src/fracnd.py`).

Modelling conventions:
* numpy float64 arithmetic is modelled by exact rational arithmetic (`ℚ`);
* an N-dimensional numpy array is modelled by its shape (a list of extents)
  together with a total valuation on index tuples (`NDArray`);
* Python's `int(...)` conversion (truncation toward zero) is `truncToInt`;
* the configuration fixed by the claims is used throughout: `subsample = None`
  (no window is skipped) and `histogram = False` (the unique-value empirical
  distribution branch of `sliding_window_statistics`); the multiprocessing
  switch does not affect the computed values and is not modelled.
-/

/-- Python `int(q)` on a real quantity: truncation toward zero
(`numpy.astype(int)` behaves the same way). -/
def truncToInt (q : ℚ) : ℤ :=
  if 0 ≤ q then ⌊q⌋ else ⌈q⌉

/-- Python `int(a / b)` for integers `a`, `b`: true division followed by
truncation toward zero, which on integers is exactly T-division
(used by `fracnd.py` lines 52-53; the operands there are small enough that
float64 division is exact before the truncation). -/
def pyIntDiv (a b : ℤ) : ℤ :=
  Int.tdiv a b

/-- `np.ndindex dims`: every index tuple `t` with `t.get i < dims.get i`,
first coordinate slowest (row-major order, as numpy iterates). -/
def ndindex : List ℕ → List (List ℕ)
  | [] => [[]]
  | n :: rest => (List.range n).flatMap (fun i => (ndindex rest).map (fun t => i :: t))

/-- An N-dimensional numpy array: a shape and a total valuation of index
tuples.  Only indices within the shape are ever read by the code below. -/
structure NDArray where
  shape : List ℕ
  val : List ℕ → ℚ

/-- The extents of the slice `input_array[start : start + wsz]` along each
dimension; Python slices clip at the array boundary. -/
def windowDims (shape start : List ℕ) (wsz : ℕ) : List ℕ :=
  List.zipWith (fun n st => min (st + wsz) n - st) shape start

/-- The elements of the window of side `wsz` whose lower corner is `start`
(`window = input_array[tuple(map(slice, start, end))]`, line 83). -/
def windowElems (a : NDArray) (start : List ℕ) (wsz : ℕ) : List ℚ :=
  (ndindex (windowDims a.shape start wsz)).map
    (fun off => a.val (List.zipWith (· + ·) start off))

/-- `Worker.__call__`, the `touched` flag: the window is binarised with
threshold `> 0` and `touched = 1 - all(binary == 0)`, i.e. 1 exactly when
some element is strictly positive (lines 13-15). -/
def worker_touched (w : List ℚ) : ℕ :=
  if w.any (fun x => decide (0 < x)) then 1 else 0

/-- `Worker.__call__`, the `mass` value: the sum of the raw (non-binarised)
window elements (line 18). -/
def worker_mass (w : List ℚ) : ℚ :=
  w.sum

/-- `fracnd.py` line 52/53: the per-dimension window counts
`int((shape[i] - window_size) / step_size) + 1` (an integer; it can be
non-positive when the window is larger than the array). -/
def window_counts (shape : List ℕ) (wsz ssz : ℕ) : List ℤ :=
  shape.map (fun n : ℕ => pyIntDiv ((n : ℤ) - (wsz : ℤ)) ((ssz : ℤ)) + 1)

/-- `fracnd.py` line 57 with `subsample = None`: the normalisation factor
`np.prod(box_window_counts) / np.prod(window_counts)`, where
`box_window_counts` uses the window size itself as the step. -/
def sws_norm (shape : List ℕ) (wsz ssz : ℕ) : ℚ :=
  ((window_counts shape wsz wsz).prod : ℚ) / ((window_counts shape wsz ssz).prod : ℚ)

/-- The enumerated window index tuples (`np.ndindex(*window_counts)`,
line 71); with `subsample = None` no position is skipped. -/
def sws_positions (a : NDArray) (wsz ssz : ℕ) : List (List ℕ) :=
  ndindex ((window_counts a.shape wsz ssz).map Int.toNat)

/-- The start corner of the window at index tuple `index`
(`start = [i * step_size for i in index]`, line 80). -/
def sws_start (index : List ℕ) (ssz : ℕ) : List ℕ :=
  index.map (fun i => i * ssz)

/-- The `(touched, mass)` pairs collected over all enumerated windows
(lines 70-98). -/
def sws_results (a : NDArray) (wsz ssz : ℕ) : List (ℕ × ℚ) :=
  (sws_positions a wsz ssz).map (fun index =>
    let w := windowElems a (sws_start index ssz) wsz
    (worker_touched w, worker_mass w))

/-- `np.sum(touched)` (line 101). -/
def sws_touched (a : NDArray) (wsz ssz : ℕ) : ℕ :=
  ((sws_results a wsz ssz).map Prod.fst).sum

/-- The box count `N = int(np.sum(touched) * norm)` (lines 101-102). -/
def sws_N (a : NDArray) (wsz ssz : ℕ) : ℤ :=
  truncToInt ((sws_touched a wsz ssz : ℚ) * sws_norm a.shape wsz ssz)

/-- `mass /= np.sum(touched)` (line 105): the mass of every enumerated
window — touched or not — divided by the number of touched windows. -/
def sws_mass_norm (a : NDArray) (wsz ssz : ℕ) : List ℚ :=
  ((sws_results a wsz ssz).map Prod.snd).map
    (fun m => m / (sws_touched a wsz ssz : ℚ))

/-- `np.unique(mass, return_counts = True)` (line 115): the distinct values
in ascending order, each with its multiplicity. -/
def np_unique_counts (l : List ℚ) : List (ℚ × ℕ) :=
  (List.insertionSort (· ≤ ·) l.dedup).map (fun v => (v, l.count v))

/-- Lines 115-123 of `sliding_window_statistics` with `histogram = False`:
unique values serve as bin centres, zero-count bins are dropped, the counts
are renormalised into probabilities, and `λ = var / mean² + 1`.  numpy's
elementwise products over the aligned `p` / `bin_centers` arrays are the
per-pair terms of the sums. -/
def lacFromMassList (l : List ℚ) : ℚ :=
  let vc := (np_unique_counts l).filter (fun x => decide (x.2 ≠ 0))
  let tot : ℚ := (vc.map (fun x => (x.2 : ℚ))).sum
  let mean : ℚ := (vc.map (fun x => ((x.2 : ℚ) / tot) * x.1)).sum
  let var : ℚ := (vc.map (fun x => ((x.2 : ℚ) / tot) * (x.1 - mean) ^ 2)).sum
  var / mean ^ 2 + 1

/-- The lacunarity value returned by `sliding_window_statistics`
(lines 104-125, `histogram = False` branch). -/
def sws_lacunarity (a : NDArray) (wsz ssz : ℕ) : ℚ :=
  lacFromMassList (sws_mass_norm a wsz ssz)

/-- Generic `np.min` over a non-empty list (the default is returned only for
the empty list, which numpy rejects). -/
def foldMin {α : Type} [LinearOrder α] (dflt : α) : List α → α
  | [] => dflt
  | x :: xs => xs.foldl min x

/-- Generic `np.max` over a non-empty list. -/
def foldMax {α : Type} [LinearOrder α] (dflt : α) : List α → α
  | [] => dflt
  | x :: xs => xs.foldl max x

/-- `np.linspace start stop num` (with the default inclusive endpoint), as
used inside `np.logspace`: `num` evenly spaced exponents from `start` to
`stop`. -/
def linspace (a b : ℚ) (n : ℕ) : List ℚ :=
  if n = 1 then [a]
  else (List.range n).map (fun i => a + (b - a) * (i : ℚ) / ((n - 1 : ℕ) : ℚ))

/-- `int(np.floor(2 ** x))` for a non-negative rational exponent `x = p/q`:
the largest `n` with `n ^ q ≤ 2 ^ p`.  This is the exact value of
`np.floor(np.logspace(...))` entries (float rounding idealised away). -/
def floorPow2 (x : ℚ) : ℕ :=
  let m := 2 ^ x.num.toNat
  ((List.range (m + 1)).filter (fun n => n ^ x.den ≤ m)).foldl max 0

/-- `np.unique` on a list of naturals: distinct values sorted ascending. -/
def npUniqueNat (l : List ℕ) : List ℕ :=
  List.insertionSort (· ≤ ·) l.dedup

/-- `self.scales` (lines 148-149): `np.unique(np.floor(np.logspace(max_exp,
min_exp, num = n_samples, base = 2)))`. -/
def scalesFor (maxe mine : ℤ) (n : ℕ) : List ℕ :=
  npUniqueNat ((linspace (maxe : ℚ) (mine : ℚ) n).map floorPow2)

/-- The estimator configuration (constructor arguments of `FracND`); the
claims fix `subsample = None` and `histogram = False`, so only the fields
that influence the modelled computation appear. -/
structure Config where
  max_box_size : Option ℤ
  min_box_size : ℤ
  stride : Option ℕ
  n_samples : ℕ
deriving DecidableEq

/-- The per-call output series of `__call__`: `self.scales`, `self.Ns` and
`self.lacunarity_spectrum` (lines 148-166).  The fitted exponents `FD`/`LD`
are deterministic functions of these series (lines 169-173) and carry no
further information about the run. -/
structure AnalyzeResult where
  scales : List ℕ
  Ns : List ℤ
  lacunarity_spectrum : List ℚ
deriving DecidableEq

/-- Outcome of one `__call__`: either the `ValueError` raised for an
all-zero input (line 143) or the collected series. -/
inductive AnalyzeOutcome where
  | emptyVolumeError
  | ok (r : AnalyzeResult)
deriving DecidableEq

/-- `np.all(input_array == 0)` (line 142). -/
def allZeroArr (a : NDArray) : Bool :=
  (ndindex a.shape).all (fun idx => decide (a.val idx = 0))

/-- `np.min(input_array.shape)`. -/
def minShape (a : NDArray) : ℕ :=
  foldMin 0 a.shape

/-- `floor(log2 m)` for `m ≥ 1`: the largest exponent `e` with `2 ^ e ≤ m`
(every such `e` satisfies `e < m`, so the bounded search is exhaustive). -/
def floorLog2 (m : ℕ) : ℕ :=
  ((List.range m).filter (fun e => 2 ^ e ≤ m)).foldl max 0

/-- `int(np.floor(np.log2(np.min(input_array.shape))))` (line 147). -/
def autoMaxBox (a : NDArray) : ℤ :=
  (floorLog2 (minShape a) : ℤ)

/-- The step size used at a given scale (lines 156-160): the configured
stride, or the scale itself when `stride is None` (plain box counting). -/
def stepFor (cfg : Config) (scale : ℕ) : ℕ :=
  match cfg.stride with
  | none => scale
  | some d => d

/-- `__call__` (lines 139-166) as a function of the configuration: the
empty-volume check, the in-place default for `max_box_size` (line 147 —
note it mutates the configuration), the scale sequence, and the loop
collecting `(N, lacunarity)` at each scale in sequence order. -/
def analyzeRun (cfg : Config) (a : NDArray) : Config × AnalyzeOutcome :=
  if allZeroArr a then (cfg, .emptyVolumeError)
  else
    let cfg' : Config :=
      match cfg.max_box_size with
      | some _ => cfg
      | none => { cfg with max_box_size := some (autoMaxBox a) }
    let maxe : ℤ := cfg'.max_box_size.getD 0
    let scales := scalesFor maxe cfg.min_box_size cfg.n_samples
    let Ns := scales.map (fun s => sws_N a s (stepFor cfg s))
    let lacs := scales.map (fun s => sws_lacunarity a s (stepFor cfg s))
    (cfg', .ok ⟨scales, Ns, lacs⟩)

/-- The mutable attributes of a `FracND` instance that survive a call:
the configuration together with the series stored on `self` (the latter are
overwritten before any read in a subsequent call). -/
structure FracState where
  cfg : Config
  scales : List ℕ
  Ns : List ℤ
  lacunarity_spectrum : List ℚ

/-- One `estimator(volume)` call: state in, state out, plus the outcome. -/
def analyze (st : FracState) (a : NDArray) : FracState × AnalyzeOutcome :=
  match analyzeRun st.cfg a with
  | (cfg', AnalyzeOutcome.emptyVolumeError) =>
      ({ st with cfg := cfg' }, AnalyzeOutcome.emptyVolumeError)
  | (cfg', AnalyzeOutcome.ok r) =>
      (⟨cfg', r.scales, r.Ns, r.lacunarity_spectrum⟩, AnalyzeOutcome.ok r)

/-- `np.unique` on a list of rationals: distinct values sorted ascending. -/
def npUniqueRat (l : List ℚ) : List ℚ :=
  List.insertionSort (· ≤ ·) l.dedup

/-- `linear_fit` preprocessing (lines 129-132):
`scales = [min(scales[vals == v]) for v in unique(vals)]`,
`vals = unique(vals)`, `vals = vals[vals > 0]`,
`scales = scales[:len(vals)]`.  Returns the `(x, y)` series handed to the
log-log fit (before the optional `1/scales` inversion). -/
def linearFitPairs (scales vals : List ℚ) : List ℚ × List ℚ :=
  let uniq := npUniqueRat vals
  let scalesMin := uniq.map (fun v =>
    foldMin 0 (((scales.zip vals).filter (fun p => decide (p.2 = v))).map Prod.fst))
  let valsPos := uniq.filter (fun v => decide (0 < v))
  (scalesMin.take valsPos.length, valsPos)

/-- `(array - min) / (max - min) * levels`, truncated to int
(`greyscale_to_binary`, lines 245-246), over the flattened array. -/
def rescaleQuantize (l : List ℚ) (levels : ℕ) : List ℤ :=
  l.map (fun x => truncToInt ((x - foldMin 0 l) / (foldMax 0 l - foldMin 0 l) * (levels : ℚ)))

/-- `greyscale_to_binary` (lines 238-265) over the flattened array: a new
trailing axis of extent `max_pixel_value + 1` is added and, for each
position, the layer indexed by the quantised pixel value is set to 1
(all other layers stay 0). -/
def greyscale_to_binary (l : List ℚ) (levels : ℕ) : List (List ℕ) :=
  let q := rescaleQuantize l levels
  let maxv := foldMax 0 q
  q.map (fun qi =>
    (List.range (maxv + 1).toNat).map (fun k : ℕ => if (k : ℤ) = qi then 1 else 0))

/-- A 3-dimensional numpy array (the input type of `crop_segmentation`). -/
structure Arr3 where
  n1 : ℕ
  n2 : ℕ
  n3 : ℕ
  val : ℕ → ℕ → ℕ → ℚ

/-- All index triples of a 3-d array, row-major. -/
def allTriples (a : Arr3) : List (ℕ × ℕ × ℕ) :=
  (List.range a.n1).flatMap (fun i =>
    (List.range a.n2).flatMap (fun j =>
      (List.range a.n3).map (fun k => (i, j, k))))

/-- `np.nonzero(array)` (line 276), as the list of nonzero index triples. -/
def nonzeroTriples (a : Arr3) : List (ℕ × ℕ × ℕ) :=
  (allTriples a).filter (fun t => decide (a.val t.1 t.2.1 t.2.2 ≠ 0))

/-- `minima = np.min(nonzero, axis=1)` (line 278). -/
def cropMinima (a : Arr3) : ℕ × ℕ × ℕ :=
  (foldMin 0 ((nonzeroTriples a).map (fun t => t.1)),
   foldMin 0 ((nonzeroTriples a).map (fun t => t.2.1)),
   foldMin 0 ((nonzeroTriples a).map (fun t => t.2.2)))

/-- `maxima = np.max(nonzero, axis=1) + 1` (line 279). -/
def cropMaxima (a : Arr3) : ℕ × ℕ × ℕ :=
  (foldMax 0 ((nonzeroTriples a).map (fun t => t.1)) + 1,
   foldMax 0 ((nonzeroTriples a).map (fun t => t.2.1)) + 1,
   foldMax 0 ((nonzeroTriples a).map (fun t => t.2.2)) + 1)

/-- `crop_segmentation` (lines 268-284):
`array[minima[0]:maxima[0], minima[1]:maxima[1], minima[2]:maxima[2]]`. -/
def crop_segmentation (a : Arr3) : Arr3 :=
  let mn := cropMinima a
  let mx := cropMaxima a
  ⟨mx.1 - mn.1, mx.2.1 - mn.2.1, mx.2.2 - mn.2.2,
   fun i j k => a.val (mn.1 + i) (mn.2.1 + j) (mn.2.2 + k)⟩

/-- `np.sum` over a 3-d array. -/
def sum3 (a : Arr3) : ℚ :=
  ∑ i ∈ Finset.range a.n1, ∑ j ∈ Finset.range a.n2, ∑ k ∈ Finset.range a.n3, a.val i j k

/-- A one-dimensional array from a list of values (used for concrete
instances). -/
def ofList1 (l : List ℚ) : NDArray :=
  ⟨[l.length], fun idx => l.getD (idx.headD 0) 0⟩

/-- A one-dimensional array of `n` ones. -/
def onesArr (n : ℕ) : NDArray :=
  ⟨[n], fun _ => 1⟩

/-- The effective maximum exponent of a run: the configured `max_box_size`,
or the automatic default derived from the volume (lines 145-147). -/
def effMax (cfg : Config) (a : NDArray) : ℤ :=
  match cfg.max_box_size with
  | some m => m
  | none => autoMaxBox a

lemma analyzeRun_fst_of_some (cfg : Config) (a : NDArray) (m : ℤ)
    (hm : cfg.max_box_size = some m) : (analyzeRun cfg a).1 = cfg := by
  unfold analyzeRun
  split
  · rfl
  · simp [hm]

lemma analyze_snd_eq (st : FracState) (a : NDArray) :
    (analyze st a).2 = (analyzeRun st.cfg a).2 := by
  unfold analyze
  rcases h : analyzeRun st.cfg a with ⟨c, o⟩
  cases o <;> simp [h]

lemma analyze_fst_cfg_of_some (st : FracState) (a : NDArray) (m : ℤ)
    (hm : st.cfg.max_box_size = some m) : (analyze st a).1.cfg = st.cfg := by
  have h1 := analyzeRun_fst_of_some st.cfg a m hm
  unfold analyze
  rcases h : analyzeRun st.cfg a with ⟨c, o⟩
  rw [h] at h1
  cases o <;> simpa [h] using h1

lemma run_maxe_getD (cfg : Config) (a : NDArray) :
    ((match cfg.max_box_size with
      | some _ => cfg
      | none => { cfg with max_box_size := some (autoMaxBox a) }) :
        Config).max_box_size.getD 0 = effMax cfg a := by
  cases h : cfg.max_box_size <;> simp [effMax, h]

/-- C5: `analyze` raises its (only) error exactly when the input volume is
entirely zero-valued; any volume with a non-zero element passes the check
and the analysis proceeds (lines 141-143). -/
theorem analyze_empty_error_iff (st : FracState) (a : NDArray) :
    (analyze st a).2 = AnalyzeOutcome.emptyVolumeError ↔ allZeroArr a = true := by
  rw [analyze_snd_eq]
  unfold analyzeRun
  by_cases hz : allZeroArr a <;> simp [hz]

/-- C9 (amended): when `max_box_size` is explicitly configured (not left to
the automatic default), `analyze` keeps no result-affecting mutable state
across calls: running `analyze v1; analyze v2` on one estimator returns the
same outcome for `v2` as a fresh estimator with the same configuration.
(With `max_box_size = None` the first call stores the computed default on
the configuration — line 147 — and the second call reuses it.) -/
theorem analyze_no_cross_call_state (st : FracState) (v1 v2 : NDArray) (m : ℤ)
    (hm : st.cfg.max_box_size = some m)
    (h1 : allZeroArr v1 = false) (h2 : allZeroArr v2 = false) :
    (analyze (analyze st v1).1 v2).2 = (analyze st v2).2 := by
  rw [analyze_snd_eq, analyze_snd_eq, analyze_fst_cfg_of_some st v1 m hm]

/-- Witness for `analyze_no_cross_call_state` at a concrete configuration
and concrete volumes. -/
theorem analyze_no_cross_call_state_witness :
    (⟨⟨some 2, 1, some 1, 2⟩, [], [], []⟩ : FracState).cfg.max_box_size = some 2
    ∧ allZeroArr (onesArr 4) = false
    ∧ allZeroArr (onesArr 8) = false
    ∧ (analyze (analyze ⟨⟨some 2, 1, some 1, 2⟩, [], [], []⟩ (onesArr 4)).1 (onesArr 8)).2
        = (analyze ⟨⟨some 2, 1, some 1, 2⟩, [], [], []⟩ (onesArr 8)).2 :=
  ⟨rfl, by decide, by decide,
    analyze_no_cross_call_state ⟨⟨some 2, 1, some 1, 2⟩, [], [], []⟩
      (onesArr 4) (onesArr 8) 2 rfl (by decide) (by decide)⟩

/-- Counterexample to C9 as stated: with `max_box_size = None` (a legal
configuration), analysing a `(4,)` volume and then an `(8,)` volume returns
a different outcome for the second volume than a fresh estimator does,
because line 147 stores the first volume's automatic `max_box_size` on the
estimator. -/
theorem analyze_cross_call_state_leak :
    (analyze (analyze ⟨⟨none, 1, some 1, 2⟩, [], [], []⟩ (onesArr 4)).1 (onesArr 8)).2
      ≠ (analyze ⟨⟨none, 1, some 1, 2⟩, [], [], []⟩ (onesArr 8)).2 := by
  have hz4 : allZeroArr (onesArr 4) = false := by decide
  have hz8 : allZeroArr (onesArr 8) = false := by decide
  have hs1 : scalesFor 2 1 2 = [2, 4] := by
    have h : linspace ((2 : ℤ) : ℚ) ((1 : ℤ) : ℚ) 2 = [2, 1] := by
      norm_num [linspace, show List.range 2 = [0, 1] from rfl]
    rw [scalesFor, h]; decide
  have hs2 : scalesFor 3 1 2 = [2, 8] := by
    have h : linspace ((3 : ℤ) : ℚ) ((1 : ℤ) : ℚ) 2 = [3, 1] := by
      norm_num [linspace, show List.range 2 = [0, 1] from rfl]
    rw [scalesFor, h]; decide
  have hc : (analyze ⟨⟨none, 1, some 1, 2⟩, [], [], []⟩ (onesArr 4)).1.cfg
      = ⟨some 2, 1, some 1, 2⟩ := by
    unfold analyze analyzeRun
    simp [hz4, show autoMaxBox (onesArr 4) = 2 from by decide]
  intro heq
  rw [analyze_snd_eq, analyze_snd_eq, hc] at heq
  unfold analyzeRun at heq
  simp [hz8, hs1, hs2, show autoMaxBox (onesArr 8) = 3 from by decide] at heq

/-- C2 (amended): the scale sequence used by `analyze` is the floor of
`n_samples` values evenly spaced in log2-space between the effective maximum
exponent and `min_box_size`, deduplicated — but `np.unique` returns it
sorted **ascending**, so the `(scale, N)` and `(scale, lacunarity)` series
are ordered by ascending scale (smallest scale processed first). -/
theorem analyze_scale_series (st : FracState) (v : NDArray) (r : AnalyzeResult)
    (h : (analyze st v).2 = AnalyzeOutcome.ok r) :
    r.scales = scalesFor (effMax st.cfg v) st.cfg.min_box_size st.cfg.n_samples
    ∧ List.Sorted (· ≤ ·) r.scales
    ∧ r.scales.Nodup
    ∧ r.Ns = r.scales.map (fun s => sws_N v s (stepFor st.cfg s))
    ∧ r.lacunarity_spectrum
        = r.scales.map (fun s => sws_lacunarity v s (stepFor st.cfg s)) := by
  rw [analyze_snd_eq] at h
  unfold analyzeRun at h
  by_cases hz : allZeroArr v
  · simp [hz] at h
  · simp only [hz, Bool.false_eq_true, if_false, run_maxe_getD st.cfg v] at h
    obtain ⟨hs, hN, hl⟩ := (AnalyzeResult.mk.injEq _ _ _ _ _ _).mp
      (AnalyzeOutcome.ok.injEq _ _ |>.mp h)
    refine ⟨hs.symm, ?_, ?_, ?_, ?_⟩
    · rw [← hs]
      exact List.sorted_insertionSort _ _
    · rw [← hs]
      exact ((List.perm_insertionSort _ _).nodup_iff).mpr (List.nodup_dedup _)
    · rw [← hN, ← hs]
    · rw [← hl, ← hs]

/-- Witness for `analyze_scale_series` at a concrete configuration and
volume (`max_box_size = 1`, one sample, a `(2,)` volume of ones). -/
theorem analyze_scale_series_witness :
    (analyze ⟨⟨some 1, 1, some 1, 1⟩, [], [], []⟩ (onesArr 2)).2
      = AnalyzeOutcome.ok
          ⟨[2], [sws_N (onesArr 2) 2 1], [sws_lacunarity (onesArr 2) 2 1]⟩
    ∧ (([2] : List ℕ)
        = scalesFor (effMax ⟨some 1, 1, some 1, 1⟩ (onesArr 2)) 1 1
      ∧ List.Sorted (· ≤ ·) ([2] : List ℕ)
      ∧ ([2] : List ℕ).Nodup
      ∧ [sws_N (onesArr 2) 2 1]
          = ([2] : List ℕ).map (fun s => sws_N (onesArr 2) s (stepFor ⟨some 1, 1, some 1, 1⟩ s))
      ∧ [sws_lacunarity (onesArr 2) 2 1]
          = ([2] : List ℕ).map
              (fun s => sws_lacunarity (onesArr 2) s (stepFor ⟨some 1, 1, some 1, 1⟩ s))) := by
  have h : (analyze ⟨⟨some 1, 1, some 1, 1⟩, [], [], []⟩ (onesArr 2)).2
      = AnalyzeOutcome.ok
          ⟨[2], [sws_N (onesArr 2) 2 1], [sws_lacunarity (onesArr 2) 2 1]⟩ := by
    rw [analyze_snd_eq]
    unfold analyzeRun
    simp [show allZeroArr (onesArr 2) = false from by decide,
      show scalesFor 1 1 1 = [2] from by decide, stepFor]
  exact ⟨h, analyze_scale_series ⟨⟨some 1, 1, some 1, 1⟩, [], [], []⟩ (onesArr 2) _ h⟩

/-- Counterexample to C2 as stated: with `max_box_size = 3`, `min_box_size
= 1` and 3 samples on a `(8,)` volume of ones, the scale sequence actually
stored is `[2, 4, 8]` — `np.unique` sorts ascending — which is not in
descending order. -/
theorem analyze_scale_series_not_descending :
    (∃ r, (analyze ⟨⟨some 3, 1, some 1, 3⟩, [], [], []⟩ (onesArr 8)).2
        = AnalyzeOutcome.ok r ∧ r.scales = [2, 4, 8])
    ∧ ¬ List.Sorted (fun x y : ℕ => y ≤ x) [2, 4, 8] := by
  have hs : scalesFor 3 1 3 = [2, 4, 8] := by
    have h : linspace ((3 : ℤ) : ℚ) ((1 : ℤ) : ℚ) 3 = [3, 2, 1] := by
      norm_num [linspace, show List.range 3 = [0, 1, 2] from rfl]
    rw [scalesFor, h]; decide
  constructor
  · refine ⟨⟨[2, 4, 8],
      [2, 4, 8].map (fun s => sws_N (onesArr 8) s 1),
      [2, 4, 8].map (fun s => sws_lacunarity (onesArr 8) s 1)⟩, ?_, rfl⟩
    rw [analyze_snd_eq]
    unfold analyzeRun
    simp [show allZeroArr (onesArr 8) = false from by decide, hs, stepFor]
  · decide

lemma foldl_min_le_init {α : Type} [LinearOrder α] (l : List α) (a : α) :
    l.foldl min a ≤ a := by
  induction l generalizing a with
  | nil => exact le_refl a
  | cons x xs ih => exact le_trans (ih (min a x)) (min_le_left a x)

lemma foldl_min_le_mem {α : Type} [LinearOrder α] {l : List α} {x : α}
    (hx : x ∈ l) (a : α) : l.foldl min a ≤ x := by
  induction l generalizing a with
  | nil => cases hx
  | cons y ys ih =>
    rcases List.mem_cons.mp hx with h | h
    · subst h
      exact le_trans (foldl_min_le_init ys (min a x)) (min_le_right a x)
    · exact ih h (min a y)

lemma foldl_min_mem {α : Type} [LinearOrder α] (l : List α) (a : α) :
    l.foldl min a ∈ a :: l := by
  induction l generalizing a with
  | nil => exact List.mem_singleton.mpr rfl
  | cons x xs ih =>
    have h := ih (min a x)
    rcases List.mem_cons.mp h with h | h
    · rcases min_choice a x with hc | hc
      · exact List.mem_cons.mpr (Or.inl (by rw [List.foldl_cons, h, hc]))
      · exact List.mem_cons.mpr (Or.inr (List.mem_cons.mpr (Or.inl (by rw [List.foldl_cons, h, hc]))))
    · exact List.mem_cons.mpr (Or.inr (List.mem_cons.mpr (Or.inr h)))

lemma foldMin_le {α : Type} [LinearOrder α] (d : α) {l : List α} {x : α}
    (hx : x ∈ l) : foldMin d l ≤ x := by
  cases l with
  | nil => cases hx
  | cons y ys =>
    rcases List.mem_cons.mp hx with h | h
    · subst h
      exact foldl_min_le_init ys x
    · exact foldl_min_le_mem h y

lemma foldMin_mem {α : Type} [LinearOrder α] (d : α) {l : List α}
    (h : l ≠ []) : foldMin d l ∈ l := by
  cases l with
  | nil => exact absurd rfl h
  | cons y ys => exact foldl_min_mem ys y

lemma foldl_max_init_le {α : Type} [LinearOrder α] (l : List α) (a : α) :
    a ≤ l.foldl max a := by
  induction l generalizing a with
  | nil => exact le_refl a
  | cons x xs ih => exact le_trans (le_max_left a x) (ih (max a x))

lemma foldl_max_mem_le {α : Type} [LinearOrder α] {l : List α} {x : α}
    (hx : x ∈ l) (a : α) : x ≤ l.foldl max a := by
  induction l generalizing a with
  | nil => cases hx
  | cons y ys ih =>
    rcases List.mem_cons.mp hx with h | h
    · subst h
      exact le_trans (le_max_right a x) (foldl_max_init_le ys (max a x))
    · exact ih h (max a y)

lemma foldl_max_mem {α : Type} [LinearOrder α] (l : List α) (a : α) :
    l.foldl max a ∈ a :: l := by
  induction l generalizing a with
  | nil => exact List.mem_singleton.mpr rfl
  | cons x xs ih =>
    have h := ih (max a x)
    rcases List.mem_cons.mp h with h | h
    · rcases max_choice a x with hc | hc
      · exact List.mem_cons.mpr (Or.inl (by rw [List.foldl_cons, h, hc]))
      · exact List.mem_cons.mpr (Or.inr (List.mem_cons.mpr (Or.inl (by rw [List.foldl_cons, h, hc]))))
    · exact List.mem_cons.mpr (Or.inr (List.mem_cons.mpr (Or.inr h)))

lemma le_foldMax {α : Type} [LinearOrder α] (d : α) {l : List α} {x : α}
    (hx : x ∈ l) : x ≤ foldMax d l := by
  cases l with
  | nil => cases hx
  | cons y ys =>
    rcases List.mem_cons.mp hx with h | h
    · subst h
      exact foldl_max_init_le ys x
    · exact foldl_max_mem_le h y

lemma foldMax_mem {α : Type} [LinearOrder α] (d : α) {l : List α}
    (h : l ≠ []) : foldMax d l ∈ l := by
  cases l with
  | nil => exact absurd rfl h
  | cons y ys => exact foldl_max_mem ys y

lemma mem_npUniqueRat {l : List ℚ} {v : ℚ} : v ∈ npUniqueRat l ↔ v ∈ l := by
  unfold npUniqueRat
  rw [(List.perm_insertionSort _ _).mem_iff, List.mem_dedup]

lemma linearFitPairs_of_pos (scales vals : List ℚ) (hpos : ∀ v ∈ vals, 0 < v) :
    linearFitPairs scales vals
      = ((npUniqueRat vals).map (fun v =>
            foldMin 0 (((scales.zip vals).filter (fun p => decide (p.2 = v))).map Prod.fst)),
          npUniqueRat vals) := by
  unfold linearFitPairs
  have hfil : (npUniqueRat vals).filter (fun v => decide (0 < v)) = npUniqueRat vals := by
    apply List.filter_eq_self.mpr
    intro v hv
    exact decide_eq_true (hpos v (mem_npUniqueRat.mp hv))
  simp only [hfil]
  have hlen : ((npUniqueRat vals).map (fun v =>
      foldMin 0 (((scales.zip vals).filter (fun p => decide (p.2 = v))).map Prod.fst))).length
        = (npUniqueRat vals).length := List.length_map _ _
  rw [← hlen, List.take_length]

/-- C4 (amended): when every value is strictly positive, the `(x, y)` pairs
fitted by `linear_fit` are exactly, for each unique value `v`, the pair
`(smallest scale that produced v, v)`: the `y` list is the distinct values
(each a value that occurred, none lost), and each `x` entry is a scale that
produced the paired value and is no larger than any scale that produced it.
(When some value is `≤ 0` the claim fails: unique values are sorted
ascending, the non-positive ones are dropped from the front of the value
list, but the aligned scale list is truncated at the back.) -/
theorem linear_fit_pairs_spec (scales vals : List ℚ)
    (hlen : scales.length = vals.length)
    (hpos : ∀ v ∈ vals, 0 < v) :
    (∀ v, v ∈ (linearFitPairs scales vals).2 ↔ v ∈ vals)
    ∧ (linearFitPairs scales vals).2.Nodup
    ∧ (linearFitPairs scales vals).1.length = (linearFitPairs scales vals).2.length
    ∧ ∀ i (h1 : i < (linearFitPairs scales vals).1.length)
        (h2 : i < (linearFitPairs scales vals).2.length),
        ((linearFitPairs scales vals).1.get ⟨i, h1⟩,
            (linearFitPairs scales vals).2.get ⟨i, h2⟩) ∈ scales.zip vals
        ∧ ∀ p ∈ scales.zip vals,
            p.2 = (linearFitPairs scales vals).2.get ⟨i, h2⟩ →
              (linearFitPairs scales vals).1.get ⟨i, h1⟩ ≤ p.1 := by
  rw [linearFitPairs_of_pos scales vals hpos]
  refine ⟨fun v => mem_npUniqueRat, ?_, List.length_map _ _, ?_⟩
  · exact ((List.perm_insertionSort _ _).nodup_iff).mpr (List.nodup_dedup _)
  · intro i h1 h2
    set v := (npUniqueRat vals).get ⟨i, h2⟩ with hv
    have hvmem : v ∈ vals := mem_npUniqueRat.mp (List.get_mem _ _ _)
    -- the candidate scale list for value v is non-empty
    have hzip : ∃ s, (s, v) ∈ scales.zip vals := by
      obtain ⟨j, hj, hjv⟩ := List.mem_iff_getElem.mp hvmem
      have hjs : j < scales.length := by rw [hlen]; exact hj
      have hjz : j < (scales.zip vals).length := by
        rw [List.length_zip, hlen, min_self]; exact hj
      refine ⟨scales.get ⟨j, hjs⟩, ?_⟩
      have hze : (scales.zip vals).get ⟨j, hjz⟩ = (scales.get ⟨j, hjs⟩, vals.get ⟨j, hj⟩) := by
        simp [List.getElem_zip]
      have hv' : vals.get ⟨j, hj⟩ = v := by simpa using hjv
      have hmem := List.get_mem (scales.zip vals) j hjz
      rw [hze, hv'] at hmem
      exact hmem
    obtain ⟨s0, hs0⟩ := hzip
    have hcand : (((scales.zip vals).filter (fun p => decide (p.2 = v))).map Prod.fst) ≠ [] := by
      have : (s0, v) ∈ (scales.zip vals).filter (fun p => decide (p.2 = v)) :=
        List.mem_filter.mpr ⟨hs0, by simp⟩
      intro hnil
      rw [List.map_eq_nil_iff] at hnil
      rw [hnil] at this
      cases this
    have hmin := foldMin_mem 0 hcand
    obtain ⟨p, hpmem, hp1⟩ := List.mem_map.mp hmin
    have hp2 : p.2 = v := by simpa using (List.mem_filter.mp hpmem).2
    have hget : ((npUniqueRat vals).map (fun v =>
        foldMin 0 (((scales.zip vals).filter (fun p => decide (p.2 = v))).map Prod.fst))).get
          ⟨i, h1⟩
        = foldMin 0 (((scales.zip vals).filter (fun p => decide (p.2 = v))).map Prod.fst) := by
      rw [List.get_map]
    constructor
    · rw [hget, ← hp1, ← hp2]
      exact (List.mem_filter.mp hpmem).1
    · intro q hq hq2
      rw [hget]
      exact foldMin_le 0 (List.mem_map.mpr ⟨q, List.mem_filter.mpr ⟨hq, by simp [hq2]⟩, rfl⟩)

/-- Witness for `linear_fit_pairs_spec` on the spec's own example
`scales = [8,8,4,2]`, `counts = [5,5,10,40]`. -/
theorem linear_fit_pairs_spec_witness :
    ([(8 : ℚ), 8, 4, 2].length = [(5 : ℚ), 5, 10, 40].length)
    ∧ (∀ v ∈ [(5 : ℚ), 5, 10, 40], 0 < v)
    ∧ ((∀ v, v ∈ (linearFitPairs [(8 : ℚ), 8, 4, 2] [(5 : ℚ), 5, 10, 40]).2
          ↔ v ∈ [(5 : ℚ), 5, 10, 40])
      ∧ (linearFitPairs [(8 : ℚ), 8, 4, 2] [(5 : ℚ), 5, 10, 40]).2.Nodup
      ∧ (linearFitPairs [(8 : ℚ), 8, 4, 2] [(5 : ℚ), 5, 10, 40]).1.length
          = (linearFitPairs [(8 : ℚ), 8, 4, 2] [(5 : ℚ), 5, 10, 40]).2.length
      ∧ ∀ i (h1 : i < (linearFitPairs [(8 : ℚ), 8, 4, 2] [(5 : ℚ), 5, 10, 40]).1.length)
          (h2 : i < (linearFitPairs [(8 : ℚ), 8, 4, 2] [(5 : ℚ), 5, 10, 40]).2.length),
          ((linearFitPairs [(8 : ℚ), 8, 4, 2] [(5 : ℚ), 5, 10, 40]).1.get ⟨i, h1⟩,
              (linearFitPairs [(8 : ℚ), 8, 4, 2] [(5 : ℚ), 5, 10, 40]).2.get ⟨i, h2⟩)
            ∈ [(8 : ℚ), 8, 4, 2].zip [(5 : ℚ), 5, 10, 40]
          ∧ ∀ p ∈ [(8 : ℚ), 8, 4, 2].zip [(5 : ℚ), 5, 10, 40],
              p.2 = (linearFitPairs [(8 : ℚ), 8, 4, 2] [(5 : ℚ), 5, 10, 40]).2.get ⟨i, h2⟩ →
                (linearFitPairs [(8 : ℚ), 8, 4, 2] [(5 : ℚ), 5, 10, 40]).1.get ⟨i, h1⟩ ≤ p.1) :=
  ⟨rfl, by decide, linear_fit_pairs_spec [(8 : ℚ), 8, 4, 2] [(5 : ℚ), 5, 10, 40] rfl (by decide)⟩

/-- Counterexample to C4 as stated: with `scales = [8,4]`, `vals = [0,5]`
the code pairs the unique positive value `5` with scale `8`, although the
smallest scale that produced `5` is `4` (the `0` is dropped from the sorted
value list at the front while the scale list is truncated at the back). -/
theorem linear_fit_pairs_misaligned :
    linearFitPairs [(8 : ℚ), 4] [(0 : ℚ), 5] = ([8], [5])
    ∧ foldMin 0 ((([(8 : ℚ), 4].zip [(0 : ℚ), 5]).filter
        (fun p => decide (p.2 = 5))).map Prod.fst) = 4
    ∧ (8 : ℚ) ≠ 4 := by
  refine ⟨by decide, by decide, by decide⟩

lemma mem_ndindex {dims : List ℕ} {t : List ℕ} :
    t ∈ ndindex dims ↔ List.Forall₂ (· < ·) t dims := by
  induction dims generalizing t with
  | nil =>
    simp only [ndindex, List.mem_singleton]
    constructor
    · rintro rfl; exact List.Forall₂.nil
    · intro h; cases h; rfl
  | cons n rest ih =>
    simp only [ndindex, List.mem_flatMap, List.mem_map, List.mem_range]
    constructor
    · rintro ⟨i, hi, u, hu, rfl⟩
      exact List.Forall₂.cons hi (ih.mp hu)
    · intro h
      cases h with
      | cons h1 h2 => exact ⟨_, h1, _, ih.mpr h2, rfl⟩

lemma ndindex_length (dims : List ℕ) : (ndindex dims).length = dims.prod := by
  induction dims with
  | nil => rfl
  | cons n rest ih =>
    rw [ndindex, List.length_flatMap]
    have h : List.map (List.length ∘ fun i => List.map (fun t => i :: t) (ndindex rest))
        (List.range n) = List.replicate n rest.prod := by
      rw [show (List.length ∘ fun i : ℕ => List.map (fun t => i :: t) (ndindex rest))
          = fun _ : ℕ => rest.prod from funext (fun i => by simp [ih]), List.map_const']
      simp
    rw [h, List.sum_replicate, smul_eq_mul, List.prod_cons]

lemma pyIntDiv_add_one_natCast {n s d : ℕ} (hs : s ≤ n) :
    pyIntDiv ((n : ℤ) - (s : ℤ)) (d : ℤ) + 1 = (((n - s) / d + 1 : ℕ) : ℤ) := by
  have h1 : (n : ℤ) - (s : ℤ) = ((n - s : ℕ) : ℤ) := by omega
  rw [pyIntDiv, h1]
  rw [show Int.tdiv ((n - s : ℕ) : ℤ) ((d : ℕ) : ℤ) = (((n - s) / d : ℕ) : ℤ) from rfl]
  push_cast
  ring

lemma window_counts_toNat {n s d : ℕ} (hs : s ≤ n) :
    (pyIntDiv ((n : ℤ) - (s : ℤ)) (d : ℤ) + 1).toNat = (n - s) / d + 1 := by
  rw [pyIntDiv_add_one_natCast hs]
  exact Int.toNat_natCast _

lemma window_counts_eq_natCast (shape : List ℕ) {s d : ℕ}
    (hfit : ∀ n ∈ shape, s ≤ n) :
    window_counts shape s d
      = (shape.map (fun n => (n - s) / d + 1)).map (Nat.cast : ℕ → ℤ) := by
  unfold window_counts
  rw [List.map_map]
  apply List.map_congr_left
  intro n hn
  exact pyIntDiv_add_one_natCast (hfit n hn)

lemma sws_positions_eq (a : NDArray) {s d : ℕ}
    (hfit : ∀ n ∈ a.shape, s ≤ n) :
    sws_positions a s d = ndindex (a.shape.map (fun n => (n - s) / d + 1)) := by
  unfold sws_positions
  rw [window_counts_eq_natCast a.shape hfit, List.map_map]
  congr 1
  rw [show (Int.toNat ∘ (Nat.cast : ℕ → ℤ)) = id from funext (fun k => Int.toNat_natCast k),
    List.map_id]

lemma sws_norm_eq (shape : List ℕ) {s d : ℕ}
    (hfit : ∀ n ∈ shape, s ≤ n) :
    sws_norm shape s d
      = (((shape.map (fun n => (n - s) / s + 1)).prod : ℕ) : ℚ)
        / (((shape.map (fun n => (n - s) / d + 1)).prod : ℕ) : ℚ) := by
  unfold sws_norm
  rw [window_counts_eq_natCast shape hfit, window_counts_eq_natCast shape hfit]
  have h : ∀ g : ℕ → ℕ, ((((shape.map g).map (Nat.cast : ℕ → ℤ)).prod : ℤ) : ℚ)
      = (((shape.map g).prod : ℕ) : ℚ) := by
    intro g
    rw [← Nat.cast_list_prod]
    exact Int.cast_natCast _
  rw [h, h]

lemma worker_touched_eq (w : List ℚ) :
    worker_touched w = if ∃ x ∈ w, 0 < x then 1 else 0 := by
  unfold worker_touched
  by_cases h : ∃ x ∈ w, 0 < x
  · rw [if_pos h, if_pos]
    rw [List.any_eq_true]
    obtain ⟨x, hx, hx0⟩ := h
    exact ⟨x, hx, decide_eq_true hx0⟩
  · rw [if_neg h, if_neg]
    rw [List.any_eq_true]
    rintro ⟨x, hx, hx0⟩
    exact h ⟨x, hx, of_decide_eq_true hx0⟩

lemma sum_ite_one {α : Type} (L : List α) (p : α → Prop) [DecidablePred p] :
    (L.map (fun x => if p x then 1 else 0)).sum
      = (L.filter (fun x => decide (p x))).length := by
  induction L with
  | nil => rfl
  | cons x xs ih =>
    by_cases h : p x <;> simp [h, ih, List.filter_cons, Nat.add_comm]

lemma sws_touched_eq_filter (a : NDArray) (s d : ℕ) :
    sws_touched a s d
      = ((sws_positions a s d).filter
          (fun idx => decide (∃ x ∈ windowElems a (sws_start idx d) s, 0 < x))).length := by
  unfold sws_touched sws_results
  rw [List.map_map]
  have h : ((fun r : ℕ × ℚ => r.1) ∘ fun index =>
      let w := windowElems a (sws_start index d) s
      (worker_touched w, worker_mass w))
      = fun index => if ∃ x ∈ windowElems a (sws_start index d) s, 0 < x then 1 else 0 := by
    funext index
    exact worker_touched_eq _
  rw [show (Prod.fst ∘ fun index =>
      let w := windowElems a (sws_start index d) s
      (worker_touched w, worker_mass w))
      = fun index => if ∃ x ∈ windowElems a (sws_start index d) s, 0 < x then 1 else 0 from h]
  exact sum_ite_one _ _

/-- C3: with subsampling disabled, a window side `s` that fits along every
dimension and a stride `d`, `sliding_window_statistics` enumerates
`floor((shape[i] - s)/d) + 1` window positions along each dimension
(`prod` of these many index tuples), its `touched` total is the number of
enumerated windows containing a strictly positive element, and the box
count is that total times `norm = prod(floor((shape[i]-s)/s)+1) /
prod(floor((shape[i]-s)/d)+1)`, truncated to an integer. -/
theorem sws_box_count_formula (a : NDArray) (s d : ℕ)
    (hs : 1 ≤ s) (hd : 1 ≤ d) (hfit : ∀ n ∈ a.shape, s ≤ n) :
    (sws_positions a s d).length = (a.shape.map (fun n => (n - s) / d + 1)).prod
    ∧ sws_touched a s d
        = ((sws_positions a s d).filter
            (fun idx => decide (∃ x ∈ windowElems a (sws_start idx d) s, 0 < x))).length
    ∧ sws_N a s d
        = truncToInt ((((sws_positions a s d).filter
              (fun idx => decide (∃ x ∈ windowElems a (sws_start idx d) s, 0 < x))).length : ℚ)
            * ((((a.shape.map (fun n => (n - s) / s + 1)).prod : ℕ) : ℚ)
              / (((a.shape.map (fun n => (n - s) / d + 1)).prod : ℕ) : ℚ))) := by
  refine ⟨?_, sws_touched_eq_filter a s d, ?_⟩
  · rw [sws_positions_eq a hfit, ndindex_length]
  · unfold sws_N
    rw [sws_norm_eq a.shape hfit, sws_touched_eq_filter a s d]

/-- Witness for `sws_box_count_formula` on a concrete `(4,)` volume with
window 2 and stride 2. -/
theorem sws_box_count_formula_witness :
    (1 ≤ 2 ∧ 1 ≤ 2 ∧ ∀ n ∈ (ofList1 [1, 0, 1, 0]).shape, 2 ≤ n)
    ∧ ((sws_positions (ofList1 [1, 0, 1, 0]) 2 2).length
        = ((ofList1 [1, 0, 1, 0]).shape.map (fun n => (n - 2) / 2 + 1)).prod
      ∧ sws_touched (ofList1 [1, 0, 1, 0]) 2 2
          = ((sws_positions (ofList1 [1, 0, 1, 0]) 2 2).filter
              (fun idx => decide (∃ x ∈ windowElems (ofList1 [1, 0, 1, 0]) (sws_start idx 2) 2,
                0 < x))).length
      ∧ sws_N (ofList1 [1, 0, 1, 0]) 2 2
          = truncToInt ((((sws_positions (ofList1 [1, 0, 1, 0]) 2 2).filter
                (fun idx => decide (∃ x ∈ windowElems (ofList1 [1, 0, 1, 0]) (sws_start idx 2) 2,
                  0 < x))).length : ℚ)
              * (((((ofList1 [1, 0, 1, 0]).shape.map (fun n => (n - 2) / 2 + 1)).prod : ℕ) : ℚ)
                / ((((ofList1 [1, 0, 1, 0]).shape.map (fun n => (n - 2) / 2 + 1)).prod : ℕ) : ℚ)))) :=
  ⟨⟨by decide, by decide, by decide⟩,
    sws_box_count_formula (ofList1 [1, 0, 1, 0]) 2 2 (by decide) (by decide) (by decide)⟩

lemma start_add_le {n s d i : ℕ} (hs : s ≤ n) (hd : 1 ≤ d)
    (hi : i < (n - s) / d + 1) : i * d + s ≤ n := by
  have h1 : i ≤ (n - s) / d := Nat.lt_succ_iff.mp hi
  have h2 : i * d ≤ n - s := (Nat.le_div_iff_mul_le hd).mp h1
  omega

lemma start_fits_aux {s d : ℕ} (hd : 1 ≤ d) :
    ∀ {shape idx : List ℕ}, (∀ n ∈ shape, s ≤ n) →
      List.Forall₂ (fun i n => i < (n - s) / d + 1) idx shape →
      List.Forall₂ (fun st n => st + s ≤ n) (idx.map (fun i => i * d)) shape := by
  intro shape
  induction shape with
  | nil =>
    intro idx _ h
    cases h
    exact List.Forall₂.nil
  | cons n ns ih =>
    intro idx hfit h
    cases h with
    | cons h1 h2 =>
      rw [List.map_cons]
      exact List.Forall₂.cons
        (start_add_le (hfit n (List.mem_cons_self _ _)) hd h1)
        (ih (fun m hm => hfit m (List.mem_cons_of_mem _ hm)) h2)

lemma start_fits (a : NDArray) {s d : ℕ} (hd : 1 ≤ d)
    (hfit : ∀ n ∈ a.shape, s ≤ n) {idx : List ℕ}
    (hidx : idx ∈ sws_positions a s d) :
    List.Forall₂ (fun st n => st + s ≤ n) (sws_start idx d) a.shape := by
  rw [sws_positions_eq a hfit, mem_ndindex, List.forall₂_map_right_iff] at hidx
  exact start_fits_aux hd hfit hidx

lemma windowDims_of_fits {shape start : List ℕ} {s : ℕ}
    (h : List.Forall₂ (fun st n => st + s ≤ n) start shape) :
    windowDims shape start s = List.replicate shape.length s := by
  induction h with
  | nil => rfl
  | cons h1 h2 ih =>
    unfold windowDims at ih ⊢
    rw [List.zipWith_cons_cons, List.length_cons, List.replicate_succ]
    congr 1
    omega

lemma windowElems_fits (a : NDArray) {start : List ℕ} {s : ℕ}
    (h : List.Forall₂ (fun st n => st + s ≤ n) start a.shape) :
    windowElems a start s
      = (ndindex (List.replicate a.shape.length s)).map
          (fun off => a.val (List.zipWith (· + ·) start off)) := by
  unfold windowElems
  rw [windowDims_of_fits h]

lemma forall2_add_lt {s : ℕ} :
    ∀ {shape start off : List ℕ},
      List.Forall₂ (fun st n => st + s ≤ n) start shape →
      List.Forall₂ (· < ·) off (List.replicate shape.length s) →
      List.Forall₂ (· < ·) (List.zipWith (· + ·) start off) shape := by
  intro shape
  induction shape with
  | nil =>
    intro start off h1 h2
    cases h1
    cases h2
    exact List.Forall₂.nil
  | cons n ns ih =>
    intro start off h1 h2
    cases h1 with
    | cons hst h1tail =>
      rw [List.length_cons, List.replicate_succ] at h2
      cases h2 with
      | cons hoff h2tail =>
        rw [List.zipWith_cons_cons]
        exact List.Forall₂.cons (by omega) (ih h1tail h2tail)

lemma ndindex_replicate_one (k : ℕ) :
    ndindex (List.replicate k 1) = [List.replicate k 0] := by
  induction k with
  | zero => rfl
  | succ k ih =>
    rw [List.replicate_succ, ndindex, ih]
    rfl

lemma zipWith_add_zero_left : ∀ {l : List ℕ} {k : ℕ}, l.length = k →
    List.zipWith (· + ·) (List.replicate k 0) l = l := by
  intro l
  induction l with
  | nil => intro k hk; subst hk; rfl
  | cons x xs ih =>
    intro k hk
    subst hk
    rw [List.length_cons, List.replicate_succ, List.zipWith_cons_cons, Nat.zero_add, ih rfl]

lemma zipWith_add_zero_right : ∀ {l : List ℕ} {k : ℕ}, l.length = k →
    List.zipWith (· + ·) l (List.replicate k 0) = l := by
  intro l
  induction l with
  | nil => intro k hk; subst hk; rfl
  | cons x xs ih =>
    intro k hk
    subst hk
    rw [List.length_cons, List.replicate_succ, List.zipWith_cons_cons, Nat.add_zero, ih rfl]

lemma forall2_replicate {R : ℕ → ℕ → Prop} {x y : ℕ} (h : R x y) (k : ℕ) :
    List.Forall₂ R (List.replicate k x) (List.replicate k y) := by
  induction k with
  | zero => exact List.Forall₂.nil
  | succ k ih =>
    rw [List.replicate_succ, List.replicate_succ]
    exact List.Forall₂.cons h ih

lemma sws_touched_all (a : NDArray) (s d : ℕ)
    (h : ∀ idx ∈ sws_positions a s d,
      ∃ x ∈ windowElems a (sws_start idx d) s, 0 < x) :
    sws_touched a s d = (sws_positions a s d).length := by
  rw [sws_touched_eq_filter]
  congr 1
  apply List.filter_eq_self.mpr
  intro idx hidx
  exact decide_eq_true (h idx hidx)

lemma truncToInt_natCast (n : ℕ) : truncToInt ((n : ℕ) : ℚ) = (n : ℤ) := by
  unfold truncToInt
  rw [if_pos (by positivity), Int.floor_natCast]

/-- C6: for every filled volume of shape `(2^k)^d` (all in-range elements
strictly positive), analysed in disjoint box-counting mode (stride = window
size), `sliding_window_statistics` returns `N = 1` at scale `2^k` and
`N = 2^(k*d)` at scale `1`. -/
theorem filled_cube_box_counts (k dd : ℕ) (a : NDArray)
    (hsh : a.shape = List.replicate dd (2 ^ k))
    (hpos : ∀ idx, List.Forall₂ (· < ·) idx a.shape → 0 < a.val idx) :
    sws_N a (2 ^ k) (2 ^ k) = 1 ∧ sws_N a 1 1 = 2 ^ (k * dd) := by
  have hlen : a.shape.length = dd := by rw [hsh, List.length_replicate]
  have hfitk : ∀ n ∈ a.shape, 2 ^ k ≤ n := by
    intro n hn
    rw [hsh, List.mem_replicate] at hn
    omega
  have hfit1 : ∀ n ∈ a.shape, 1 ≤ n := by
    intro n hn
    rw [hsh, List.mem_replicate] at hn
    rcases hn with ⟨-, rfl⟩
    exact Nat.one_le_two_pow
  constructor
  · -- scale 2^k, stride 2^k: a single all-covering window
    have hmapk : a.shape.map (fun n => (n - 2 ^ k) / 2 ^ k + 1) = List.replicate dd 1 := by
      rw [hsh, List.map_replicate, Nat.sub_self, Nat.zero_div]
    have hposk : sws_positions a (2 ^ k) (2 ^ k) = [List.replicate dd 0] := by
      rw [sws_positions_eq a hfitk, hmapk, ndindex_replicate_one]
    have htouch : ∀ idx ∈ sws_positions a (2 ^ k) (2 ^ k),
        ∃ x ∈ windowElems a (sws_start idx (2 ^ k)) (2 ^ k), 0 < x := by
      intro idx hidx
      have hfits := start_fits a Nat.one_le_two_pow hfitk hidx
      rw [windowElems_fits a hfits]
      have hlenpos : 0 < (ndindex (List.replicate a.shape.length (2 ^ k))).length := by
        rw [ndindex_length, List.prod_replicate]
        positivity
      obtain ⟨off, hoff⟩ := List.exists_mem_of_length_pos hlenpos
      refine ⟨a.val (List.zipWith (· + ·) (sws_start idx (2 ^ k)) off),
        List.mem_map_of_mem _ hoff, ?_⟩
      exact hpos _ (forall2_add_lt hfits (mem_ndindex.mp hoff))
    have htouched : sws_touched a (2 ^ k) (2 ^ k) = 1 := by
      rw [sws_touched_all a _ _ htouch, hposk]
      rfl
    have hnorm : sws_norm a.shape (2 ^ k) (2 ^ k) = 1 := by
      rw [sws_norm_eq a.shape hfitk, hmapk, List.prod_replicate, one_pow]
      norm_num
    unfold sws_N
    rw [htouched, hnorm]
    norm_num [truncToInt]
  · -- scale 1, stride 1: every cell is its own touched window
    have hmap1 : a.shape.map (fun n => (n - 1) / 1 + 1) = List.replicate dd (2 ^ k) := by
      rw [hsh, List.map_replicate]
      congr 1
      rw [Nat.div_one]
      have : 1 ≤ 2 ^ k := Nat.one_le_two_pow
      omega
    have hpos1 : sws_positions a 1 1 = ndindex (List.replicate dd (2 ^ k)) := by
      rw [sws_positions_eq a hfit1, hmap1]
    have htouch : ∀ idx ∈ sws_positions a 1 1,
        ∃ x ∈ windowElems a (sws_start idx 1) 1, 0 < x := by
      intro idx hidx
      have hfits := start_fits a (le_refl 1) hfit1 hidx
      rw [windowElems_fits a hfits]
      have hidx' : List.Forall₂ (· < ·) idx a.shape := by
        rw [hpos1, mem_ndindex] at hidx
        rw [hsh]
        exact hidx
      have hidxlen : idx.length = dd := by
        have h := List.Forall₂.length_eq hidx'
        rw [hlen] at h
        exact h
      rw [hlen, ndindex_replicate_one]
      refine ⟨a.val (List.zipWith (· + ·) (sws_start idx 1) (List.replicate dd 0)),
        List.mem_map_of_mem _ (List.mem_singleton.mpr rfl), ?_⟩
      have hstart : sws_start idx 1 = idx := by
        unfold sws_start
        simp
      rw [hstart, zipWith_add_zero_right hidxlen]
      exact hpos idx hidx'
    have htouched : sws_touched a 1 1 = ((2 ^ k) ^ dd : ℕ) := by
      rw [sws_touched_all a _ _ htouch, hpos1, ndindex_length, List.prod_replicate]
    have hnorm : sws_norm a.shape 1 1 = 1 := by
      rw [sws_norm_eq a.shape hfit1, hmap1, List.prod_replicate]
      apply div_self
      positivity
    unfold sws_N
    rw [htouched, hnorm, mul_one, truncToInt_natCast]
    push_cast
    rw [← pow_mul]

/-- Witness for `filled_cube_box_counts`: the filled `2 × 2` volume of ones
(`k = 1`, `d = 2`). -/
theorem filled_cube_box_counts_witness :
    ((⟨[2, 2], fun _ => 1⟩ : NDArray).shape = List.replicate 2 (2 ^ 1)
      ∧ ∀ idx, List.Forall₂ (· < ·) idx (⟨[2, 2], fun _ => 1⟩ : NDArray).shape
          → 0 < (⟨[2, 2], fun _ => 1⟩ : NDArray).val idx)
    ∧ (sws_N ⟨[2, 2], fun _ => 1⟩ (2 ^ 1) (2 ^ 1) = 1
      ∧ sws_N ⟨[2, 2], fun _ => 1⟩ 1 1 = 2 ^ (1 * 2)) :=
  ⟨⟨rfl, fun _ _ => by norm_num⟩,
    filled_cube_box_counts 1 2 ⟨[2, 2], fun _ => 1⟩ rfl (fun _ _ => by norm_num)⟩

lemma lacFromMassList_replicate (K : ℕ) (hK : 1 ≤ K) (x : ℚ) :
    lacFromMassList (List.replicate K x) = 1 := by
  have hKne : (K : ℚ) ≠ 0 := Nat.cast_ne_zero.mpr (by omega)
  have hd : (List.replicate K x).dedup = [x] := List.replicate_dedup (by omega)
  unfold lacFromMassList np_unique_counts
  rw [hd]
  simp only [List.insertionSort, List.orderedInsert, List.map_cons, List.map_nil,
    List.count_replicate_self, List.filter_cons, List.filter_nil]
  rw [if_pos (by simp [show K ≠ 0 from by omega])]
  simp [div_self hKne]

/-- C7: for a volume whose in-range elements all equal the same strictly
positive constant, the lacunarity returned by `sliding_window_statistics`
equals 1 at every scale (all window masses coincide, so the
mass-distribution variance is 0 and `var/mean² + 1 = 1`). -/
theorem constant_volume_lacunarity (a : NDArray) (c : ℚ) (hc : 0 < c)
    (hval : ∀ idx, List.Forall₂ (· < ·) idx a.shape → a.val idx = c)
    (s d : ℕ) (hs : 1 ≤ s) (hd : 1 ≤ d) (hfit : ∀ n ∈ a.shape, s ≤ n) :
    sws_lacunarity a s d = 1 := by
  have hmass : ∀ idx ∈ sws_positions a s d,
      worker_mass (windowElems a (sws_start idx d) s)
        = ((s ^ a.shape.length : ℕ) : ℚ) * c := by
    intro idx hidx
    have hfits := start_fits a hd hfit hidx
    rw [windowElems_fits a hfits]
    have helems : ∀ y ∈ (ndindex (List.replicate a.shape.length s)).map
        (fun off => a.val (List.zipWith (· + ·) (sws_start idx d) off)), y = c := by
      intro y hy
      obtain ⟨off, hoff, rfl⟩ := List.mem_map.mp hy
      exact hval _ (forall2_add_lt hfits (mem_ndindex.mp hoff))
    unfold worker_mass
    rw [List.eq_replicate_of_mem helems, List.sum_replicate, List.length_map,
      ndindex_length, List.prod_replicate, nsmul_eq_mul]
  have hmasses : (sws_results a s d).map Prod.snd
      = List.replicate (sws_positions a s d).length
          (((s ^ a.shape.length : ℕ) : ℚ) * c) := by
    unfold sws_results
    rw [List.map_map]
    rw [show (Prod.snd ∘ fun index =>
        let w := windowElems a (sws_start index d) s
        (worker_touched w, worker_mass w))
        = fun index => worker_mass (windowElems a (sws_start index d) s) from rfl]
    have hall : ∀ y ∈ (sws_positions a s d).map
        (fun index => worker_mass (windowElems a (sws_start index d) s)),
        y = ((s ^ a.shape.length : ℕ) : ℚ) * c := by
      intro y hy
      obtain ⟨idx, hidx, rfl⟩ := List.mem_map.mp hy
      exact hmass idx hidx
    rw [List.eq_replicate_of_mem hall, List.length_map]
  have hnormlist : sws_mass_norm a s d
      = List.replicate (sws_positions a s d).length
          ((((s ^ a.shape.length : ℕ) : ℚ) * c) / (sws_touched a s d : ℚ)) := by
    unfold sws_mass_norm
    rw [hmasses, List.map_replicate]
  have hKpos : 1 ≤ (sws_positions a s d).length := by
    rw [sws_positions_eq a hfit, ndindex_length]
    have hfac : ∀ m ∈ a.shape.map (fun n => (n - s) / d + 1), 0 < m := by
      intro m hm
      obtain ⟨n, _, rfl⟩ := List.mem_map.mp hm
      exact Nat.succ_pos _
    exact List.prod_pos hfac
  unfold sws_lacunarity
  rw [hnormlist]
  exact lacFromMassList_replicate _ hKpos _

/-- Witness for `constant_volume_lacunarity`: the constant volume `[3, 3]`
at scale 2, stride 1. -/
theorem constant_volume_lacunarity_witness :
    (0 < (3 : ℚ)
      ∧ (∀ idx, List.Forall₂ (· < ·) idx (⟨[2], fun _ => 3⟩ : NDArray).shape
          → (⟨[2], fun _ => 3⟩ : NDArray).val idx = 3)
      ∧ 1 ≤ 2 ∧ 1 ≤ 1 ∧ ∀ n ∈ (⟨[2], fun _ => 3⟩ : NDArray).shape, 2 ≤ n)
    ∧ sws_lacunarity ⟨[2], fun _ => 3⟩ 2 1 = 1 :=
  ⟨⟨by decide, fun _ _ => rfl, by decide, by decide, by decide⟩,
    constant_volume_lacunarity ⟨[2], fun _ => 3⟩ 3 (by decide) (fun _ _ => rfl)
      2 1 (by decide) (by decide) (by decide)⟩

lemma sum_dedup_count_mul (l : List ℚ) (f : ℚ → ℚ) :
    (l.dedup.map (fun v => (l.count v : ℚ) * f v)).sum = (l.map f).sum := by
  have hto : l.dedup.toFinset = l.toFinset := by
    ext x
    simp [List.mem_toFinset, List.mem_dedup]
  have h1 : (l.dedup.map (fun v => (l.count v : ℚ) * f v)).sum
      = ∑ v ∈ l.toFinset, (l.count v : ℚ) * f v := by
    rw [← hto]
    exact (List.sum_toFinset _ (List.nodup_dedup l)).symm
  rw [h1, Finset.sum_list_map_count l f]
  exact Finset.sum_congr rfl (fun v _ => (nsmul_eq_mul _ _).symm)

lemma sum_np_unique_counts (l : List ℚ) (f : ℚ → ℚ) :
    ((np_unique_counts l).map (fun x => (x.2 : ℚ) * f x.1)).sum = (l.map f).sum := by
  unfold np_unique_counts
  rw [List.map_map]
  have hperm := ((List.perm_insertionSort (fun a b : ℚ => a ≤ b) l.dedup).map
    ((fun x : ℚ × ℕ => (x.2 : ℚ) * f x.1) ∘ fun v => (v, l.count v)))
  rw [hperm.sum_eq]
  exact sum_dedup_count_mul l f

lemma np_unique_counts_filter (l : List ℚ) :
    (np_unique_counts l).filter (fun x => decide (x.2 ≠ 0)) = np_unique_counts l := by
  apply List.filter_eq_self.mpr
  intro x hx
  unfold np_unique_counts at hx
  obtain ⟨v, hv, rfl⟩ := List.mem_map.mp hx
  have hvl : v ∈ l := List.mem_dedup.mp ((List.perm_insertionSort _ _).mem_iff.mp hv)
  have hc := List.count_pos_iff.mpr hvl
  exact decide_eq_true (by omega)

/-- Modelled from the spec (amended C1): the empirical mean of a list. -/
def listMean (l : List ℚ) : ℚ :=
  l.sum / (l.length : ℚ)

/-- Modelled from the spec (amended C1): the empirical (population)
variance of a list. -/
def listVar (l : List ℚ) : ℚ :=
  ((l.map (fun x => (x - listMean l) ^ 2)).sum) / (l.length : ℚ)

/-- Modelled from the spec (amended C1): lacunarity of the empirical
distribution of a list of normalised masses, `var / mean² + 1`. -/
def lacOfList (l : List ℚ) : ℚ :=
  listVar l / (listMean l) ^ 2 + 1

lemma sum_np_unique_div_mul (l : List ℚ) (f : ℚ → ℚ) :
    ((np_unique_counts l).map
      (fun x => ((x.2 : ℚ) / (l.length : ℚ)) * f x.1)).sum
      = (l.map f).sum / (l.length : ℚ) := by
  have h2 : ((np_unique_counts l).map
      (fun x => ((x.2 : ℚ) / (l.length : ℚ)) * f x.1)).sum
      = ((np_unique_counts l).map
          (fun x => ((x.2 : ℚ) * f x.1) * (l.length : ℚ)⁻¹)).sum := by
    congr 1
    apply List.map_congr_left
    intro x _
    rw [div_eq_mul_inv]
    ring
  rw [h2, List.sum_map_mul_right, sum_np_unique_counts l f, div_eq_mul_inv]

lemma sum_np_unique_eq_length (l : List ℚ) :
    ((np_unique_counts l).map (fun x => (x.2 : ℚ))).sum = (l.length : ℚ) := by
  have h1 := sum_np_unique_counts l (fun _ => 1)
  simpa [List.map_const', List.sum_replicate] using h1

lemma lacFromMassList_eq_lacOfList (l : List ℚ) :
    lacFromMassList l = lacOfList l := by
  simp only [lacFromMassList]
  rw [np_unique_counts_filter, sum_np_unique_eq_length,
    show ((np_unique_counts l).map
      (fun x => ((x.2 : ℚ) / (l.length : ℚ)) * x.1)).sum
      = (l.map (fun v => v)).sum / (l.length : ℚ) from sum_np_unique_div_mul l (fun v => v),
    List.map_id', show l.sum / (l.length : ℚ) = listMean l from rfl,
    show ((np_unique_counts l).map
      (fun x => ((x.2 : ℚ) / (l.length : ℚ)) * (x.1 - listMean l) ^ 2)).sum
      = (l.map (fun v => (v - listMean l) ^ 2)).sum / (l.length : ℚ)
      from sum_np_unique_div_mul l (fun v => (v - listMean l) ^ 2)]
  rfl

/-- C1 (amended): at every scale, the lacunarity of
`sliding_window_statistics` (unique-value mode) is the `var/mean² + 1` of
the empirical distribution of the normalised masses of **all** enumerated
windows — each mass divided by the touched count, with untouched windows
contributing their (zero) masses to the distribution, not excluded. -/
theorem sws_lacunarity_all_windows (a : NDArray) (s d : ℕ) :
    sws_lacunarity a s d = lacOfList (sws_mass_norm a s d) :=
  lacFromMassList_eq_lacOfList _

/-- Modelled from the spec (C1 as stated): the lacunarity computed from the
masses of the touched windows only, each divided by the touched count,
with the distribution over the unique normalised masses. -/
def lacTouchedOnlySpec (a : NDArray) (wsz ssz : ℕ) : ℚ :=
  lacFromMassList
    ((((sws_results a wsz ssz).filter (fun r => decide (r.1 = 1))).map Prod.snd).map
      (fun m => m / (sws_touched a wsz ssz : ℚ)))

/-- Counterexample to C1 as stated: for the volume `[1, 0]` at scale 1 and
stride 1, the code's lacunarity is 2 because the untouched window's zero
mass enters the distribution, while the touched-windows-only computation
demanded by the claim yields 1. -/
theorem sws_lacunarity_counts_untouched :
    sws_lacunarity (ofList1 [1, 0]) 1 1 = 2
    ∧ lacTouchedOnlySpec (ofList1 [1, 0]) 1 1 = 1 := by
  have hp : sws_positions (ofList1 [1, 0]) 1 1 = [[0], [1]] := by decide
  have hw0 : windowElems (ofList1 [1, 0]) (sws_start [0] 1) 1 = [1] := by decide
  have hw1 : windowElems (ofList1 [1, 0]) (sws_start [1] 1) 1 = [0] := by decide
  have hres : sws_results (ofList1 [1, 0]) 1 1 = [(1, 1), (0, 0)] := by
    simp [sws_results, hp, hw0, hw1, worker_touched, worker_mass]
  have htou : sws_touched (ofList1 [1, 0]) 1 1 = 1 := by
    simp [sws_touched, hres]
  constructor
  · have hmn : sws_mass_norm (ofList1 [1, 0]) 1 1 = [1, 0] := by
      simp [sws_mass_norm, hres, htou]
    rw [sws_lacunarity, hmn]
    have hu : np_unique_counts [1, 0] = [(0, 1), (1, 1)] := by decide
    simp only [lacFromMassList, hu]
    norm_num [List.filter_cons, List.filter_nil]
  · have hmt : (((sws_results (ofList1 [1, 0]) 1 1).filter
        (fun r => decide (r.1 = 1))).map Prod.snd).map
          (fun m => m / (sws_touched (ofList1 [1, 0]) 1 1 : ℚ)) = [1] := by
      rw [hres, htou]
      norm_num [List.filter_cons, List.filter_nil]
    rw [lacTouchedOnlySpec, hmt]
    exact lacFromMassList_replicate 1 (le_refl 1) 1

lemma list_range_sum_eq {M : Type} [AddCommMonoid M] (n : ℕ) (f : ℕ → M) :
    ((List.range n).map f).sum = ∑ k ∈ Finset.range n, f k := by
  induction n with
  | zero => rfl
  | succ n ih =>
    rw [List.range_succ, List.map_append, List.sum_append, Finset.sum_range_succ, ih]
    simp

lemma one_hot_row_sum (n : ℕ) (q : ℤ) (h0 : 0 ≤ q) (hn : q.toNat < n) :
    ((List.range n).map (fun k : ℕ => if (k : ℤ) = q then 1 else 0)).sum = 1 := by
  rw [list_range_sum_eq]
  have hcond : ∀ k ∈ Finset.range n,
      (if (k : ℤ) = q then (1 : ℕ) else 0) = if k = q.toNat then 1 else 0 := by
    intro k _
    by_cases hk : (k : ℤ) = q
    · rw [if_pos hk, if_pos (by omega)]
    · rw [if_neg hk, if_neg (by omega)]
  rw [Finset.sum_congr rfl hcond, Finset.sum_ite_eq' (Finset.range n) q.toNat (fun _ => 1),
    if_pos (Finset.mem_range.mpr hn)]

lemma rescaleQuantize_nonneg (l : List ℚ) (levels : ℕ)
    (hc : foldMin 0 l < foldMax 0 l) {q : ℤ}
    (hq : q ∈ rescaleQuantize l levels) : 0 ≤ q := by
  obtain ⟨x, hx, rfl⟩ := List.mem_map.mp hq
  have h0 : (0 : ℚ) ≤ (x - foldMin 0 l) / (foldMax 0 l - foldMin 0 l) * (levels : ℚ) := by
    apply mul_nonneg
    · apply div_nonneg
      · have := foldMin_le 0 hx
        linarith
      · linarith
    · positivity
  unfold truncToInt
  rw [if_pos h0]
  exact Int.floor_nonneg.mpr h0

/-- C8 (amended): for every non-constant array, `greyscale_to_binary`
produces a one-hot layer stack: at each position the layers sum to 1 (so
plain summation over the added axis yields the all-ones field, not the
quantised field), and the layer holding the 1 is exactly the one indexed by
the rescaled, quantised intensity — which is therefore recoverable from the
binary stack. -/
theorem greyscale_binary_one_hot (l : List ℚ) (levels : ℕ) (i : ℕ)
    (hc : foldMin 0 l < foldMax 0 l) (hi : i < l.length) :
    ((greyscale_to_binary l levels).getD i []).sum = 1
    ∧ 0 ≤ (rescaleQuantize l levels).getD i 0
    ∧ ((rescaleQuantize l levels).getD i 0).toNat
        < (foldMax 0 (rescaleQuantize l levels) + 1).toNat
    ∧ ∀ k < (foldMax 0 (rescaleQuantize l levels) + 1).toNat,
        (((greyscale_to_binary l levels).getD i []).getD k 0 = 1
          ↔ (k : ℤ) = (rescaleQuantize l levels).getD i 0) := by
  have hqlen : (rescaleQuantize l levels).length = l.length := List.length_map _ _
  have hiq : i < (rescaleQuantize l levels).length := by rw [hqlen]; exact hi
  set qs := rescaleQuantize l levels with hqs
  set qi := qs.getD i 0 with hqi
  have hqmem : qi ∈ qs := by
    rw [hqi, List.getD_eq_getElem qs 0 hiq]
    exact List.getElem_mem hiq
  have hq0 : 0 ≤ qi := rescaleQuantize_nonneg l levels hc hqmem
  have hqmax : qi ≤ foldMax 0 qs := le_foldMax 0 hqmem
  have hn : qi.toNat < (foldMax 0 qs + 1).toNat := by omega
  have hgb : greyscale_to_binary l levels
      = qs.map (fun q => (List.range ((foldMax 0 qs + 1).toNat)).map
          (fun k : ℕ => if (k : ℤ) = q then 1 else 0)) := by
    simp only [greyscale_to_binary, ← hqs]
  have hrow : (greyscale_to_binary l levels).getD i []
      = (List.range (foldMax 0 qs + 1).toNat).map
          (fun k : ℕ => if (k : ℤ) = qi then 1 else 0) := by
    rw [List.getD_eq_getElem?_getD, hgb, List.getElem?_map, List.getElem?_eq_getElem hiq]
    simp [hqi, List.getD_eq_getElem?_getD, List.getElem?_eq_getElem hiq]
  refine ⟨?_, hq0, hn, ?_⟩
  · rw [hrow]
    exact one_hot_row_sum _ _ hq0 hn
  · intro k hk
    rw [hrow]
    have hkr : k < (List.range (foldMax 0 qs + 1).toNat).length := by
      rw [List.length_range]
      exact hk
    have hkm : k < ((List.range (foldMax 0 qs + 1).toNat).map
        (fun j : ℕ => if (j : ℤ) = qi then 1 else 0)).length := by
      rw [List.length_map]
      exact hkr
    rw [List.getD_eq_getElem _ _ hkm, List.getElem_map, List.getElem_range]
    by_cases hcase : (k : ℤ) = qi
    · rw [if_pos hcase]
      simp [hcase]
    · rw [if_neg hcase]
      simp [hcase]

/-- Witness for `greyscale_binary_one_hot` on the array `[0, 2, 1]` with
`levels = 2`, at position 1. -/
theorem greyscale_binary_one_hot_witness :
    (foldMin 0 ([0, 2, 1] : List ℚ) < foldMax 0 ([0, 2, 1] : List ℚ)
      ∧ 1 < ([(0 : ℚ), 2, 1] : List ℚ).length)
    ∧ (((greyscale_to_binary [0, 2, 1] 2).getD 1 []).sum = 1
      ∧ 0 ≤ (rescaleQuantize [0, 2, 1] 2).getD 1 0
      ∧ ((rescaleQuantize [0, 2, 1] 2).getD 1 0).toNat
          < (foldMax 0 (rescaleQuantize [0, 2, 1] 2) + 1).toNat
      ∧ ∀ k < (foldMax 0 (rescaleQuantize [0, 2, 1] 2) + 1).toNat,
          (((greyscale_to_binary [0, 2, 1] 2).getD 1 []).getD k 0 = 1
            ↔ (k : ℤ) = (rescaleQuantize [0, 2, 1] 2).getD 1 0)) :=
  ⟨⟨by decide, by decide⟩,
    greyscale_binary_one_hot [0, 2, 1] 2 1 (by decide) (by decide)⟩

/-- Counterexample to C8 as stated: for the non-constant array `[0, 1]`
with `levels = 1`, summing the binary stack over the added axis gives
`[1, 1]`, not the quantised field `[0, 1]`. -/
theorem greyscale_sum_not_field :
    rescaleQuantize [0, 1] 1 = [0, 1]
    ∧ (greyscale_to_binary [0, 1] 1).map (fun row => (row.sum : ℤ)) = [1, 1]
    ∧ ([1, 1] : List ℤ) ≠ [0, 1] := by
  have hq : rescaleQuantize [0, 1] 1 = [0, 1] := by
    unfold rescaleQuantize
    norm_num [foldMin, foldMax, truncToInt]
  have hb : greyscale_to_binary [0, 1] 1 = [[1, 0], [0, 1]] := by
    simp only [greyscale_to_binary, hq]
    decide
  refine ⟨hq, ?_, by decide⟩
  rw [hb]
  decide

lemma mem_allTriples {a : Arr3} {t : ℕ × ℕ × ℕ} :
    t ∈ allTriples a ↔ t.1 < a.n1 ∧ t.2.1 < a.n2 ∧ t.2.2 < a.n3 := by
  rcases t with ⟨i, j, k⟩
  constructor
  · intro h
    simp only [allTriples, List.mem_flatMap, List.mem_map, List.mem_range] at h
    obtain ⟨i', hi', j', hj', k', hk', heq⟩ := h
    cases heq
    exact ⟨hi', hj', hk'⟩
  · rintro ⟨h1, h2, h3⟩
    simp only [allTriples, List.mem_flatMap, List.mem_map, List.mem_range]
    exact ⟨i, h1, j, h2, k, h3, rfl⟩

lemma mem_nonzeroTriples {a : Arr3} {t : ℕ × ℕ × ℕ} :
    t ∈ nonzeroTriples a
      ↔ (t.1 < a.n1 ∧ t.2.1 < a.n2 ∧ t.2.2 < a.n3) ∧ a.val t.1 t.2.1 t.2.2 ≠ 0 := by
  unfold nonzeroTriples
  rw [List.mem_filter, mem_allTriples]
  simp

lemma nonzero_bounds {a : Arr3} {i j k : ℕ}
    (h1 : i < a.n1) (h2 : j < a.n2) (h3 : k < a.n3)
    (hnz : a.val i j k ≠ 0) :
    (cropMinima a).1 ≤ i ∧ i < (cropMaxima a).1
    ∧ (cropMinima a).2.1 ≤ j ∧ j < (cropMaxima a).2.1
    ∧ (cropMinima a).2.2 ≤ k ∧ k < (cropMaxima a).2.2 := by
  have hmem : ((i, j, k) : ℕ × ℕ × ℕ) ∈ nonzeroTriples a :=
    mem_nonzeroTriples.mpr ⟨⟨h1, h2, h3⟩, hnz⟩
  have hi1 : foldMin 0 ((nonzeroTriples a).map (fun t : ℕ × ℕ × ℕ => t.1)) ≤ i :=
    foldMin_le 0 (List.mem_map_of_mem _ hmem)
  have hi2 : i ≤ foldMax 0 ((nonzeroTriples a).map (fun t : ℕ × ℕ × ℕ => t.1)) :=
    le_foldMax 0 (List.mem_map_of_mem _ hmem)
  have hj1 : foldMin 0 ((nonzeroTriples a).map (fun t : ℕ × ℕ × ℕ => t.2.1)) ≤ j :=
    foldMin_le 0 (List.mem_map_of_mem _ hmem)
  have hj2 : j ≤ foldMax 0 ((nonzeroTriples a).map (fun t : ℕ × ℕ × ℕ => t.2.1)) :=
    le_foldMax 0 (List.mem_map_of_mem _ hmem)
  have hk1 : foldMin 0 ((nonzeroTriples a).map (fun t : ℕ × ℕ × ℕ => t.2.2)) ≤ k :=
    foldMin_le 0 (List.mem_map_of_mem _ hmem)
  have hk2 : k ≤ foldMax 0 ((nonzeroTriples a).map (fun t : ℕ × ℕ × ℕ => t.2.2)) :=
    le_foldMax 0 (List.mem_map_of_mem _ hmem)
  unfold cropMinima cropMaxima
  dsimp only
  exact ⟨hi1, by omega, hj1, by omega, hk1, by omega⟩

lemma zero_outside {a : Arr3} {i j k : ℕ}
    (h1 : i < a.n1) (h2 : j < a.n2) (h3 : k < a.n3)
    (hout : i < (cropMinima a).1 ∨ (cropMaxima a).1 ≤ i
      ∨ j < (cropMinima a).2.1 ∨ (cropMaxima a).2.1 ≤ j
      ∨ k < (cropMinima a).2.2 ∨ (cropMaxima a).2.2 ≤ k) :
    a.val i j k = 0 := by
  by_contra hnz
  obtain ⟨b1, b2, b3, b4, b5, b6⟩ := nonzero_bounds h1 h2 h3 hnz
  omega

lemma exists_attained_min {l : List (ℕ × ℕ × ℕ)} (f : ℕ × ℕ × ℕ → ℕ)
    (h : l ≠ []) : ∃ t ∈ l, f t = foldMin 0 (l.map f) := by
  have hmap : l.map f ≠ [] := by simpa using h
  obtain ⟨t, ht, heq⟩ := List.mem_map.mp (foldMin_mem 0 hmap)
  exact ⟨t, ht, heq⟩

lemma exists_attained_max {l : List (ℕ × ℕ × ℕ)} (f : ℕ × ℕ × ℕ → ℕ)
    (h : l ≠ []) : ∃ t ∈ l, f t = foldMax 0 (l.map f) := by
  have hmap : l.map f ≠ [] := by simpa using h
  obtain ⟨t, ht, heq⟩ := List.mem_map.mp (foldMax_mem 0 hmap)
  exact ⟨t, ht, heq⟩

lemma cropMaxima_le (a : Arr3) (h : nonzeroTriples a ≠ []) :
    (cropMaxima a).1 ≤ a.n1 ∧ (cropMaxima a).2.1 ≤ a.n2 ∧ (cropMaxima a).2.2 ≤ a.n3 := by
  obtain ⟨t1, ht1, he1⟩ := exists_attained_max (fun t : ℕ × ℕ × ℕ => t.1) h
  obtain ⟨t2, ht2, he2⟩ := exists_attained_max (fun t : ℕ × ℕ × ℕ => t.2.1) h
  obtain ⟨t3, ht3, he3⟩ := exists_attained_max (fun t : ℕ × ℕ × ℕ => t.2.2) h
  have hb1 := (mem_nonzeroTriples.mp ht1).1.1
  have hb2 := (mem_nonzeroTriples.mp ht2).1.2.1
  have hb3 := (mem_nonzeroTriples.mp ht3).1.2.2
  unfold cropMaxima
  dsimp only
  omega

lemma crop_val (a : Arr3) (x y z : ℕ) :
    (crop_segmentation a).val x y z
      = a.val ((cropMinima a).1 + x) ((cropMinima a).2.1 + y) ((cropMinima a).2.2 + z) := rfl

lemma crop_n1 (a : Arr3) :
    (crop_segmentation a).n1 = (cropMaxima a).1 - (cropMinima a).1 := rfl

lemma crop_n2 (a : Arr3) :
    (crop_segmentation a).n2 = (cropMaxima a).2.1 - (cropMinima a).2.1 := rfl

lemma crop_n3 (a : Arr3) :
    (crop_segmentation a).n3 = (cropMaxima a).2.2 - (cropMinima a).2.2 := rfl

lemma sum3_crop (a : Arr3) (h : nonzeroTriples a ≠ []) :
    sum3 (crop_segmentation a) = sum3 a := by
  obtain ⟨hM1, hM2, hM3⟩ := cropMaxima_le a h
  have hcrop : sum3 (crop_segmentation a)
      = ∑ i ∈ Finset.range ((cropMaxima a).1 - (cropMinima a).1),
          ∑ j ∈ Finset.range ((cropMaxima a).2.1 - (cropMinima a).2.1),
            ∑ k ∈ Finset.range ((cropMaxima a).2.2 - (cropMinima a).2.2),
              a.val ((cropMinima a).1 + i) ((cropMinima a).2.1 + j)
                ((cropMinima a).2.2 + k) := rfl
  have houter : sum3 a
      = ∑ i ∈ Finset.Ico (cropMinima a).1 (cropMaxima a).1,
          ∑ j ∈ Finset.range a.n2, ∑ k ∈ Finset.range a.n3, a.val i j k := by
    unfold sum3
    symm
    apply Finset.sum_subset
    · intro x hx
      rw [Finset.mem_Ico] at hx
      rw [Finset.mem_range]
      omega
    · intro x hx hnot
      apply Finset.sum_eq_zero
      intro j hj
      apply Finset.sum_eq_zero
      intro k hk
      apply zero_outside (Finset.mem_range.mp hx) (Finset.mem_range.mp hj)
        (Finset.mem_range.mp hk)
      rw [Finset.mem_Ico] at hnot
      omega
  have hinner : ∀ i ∈ Finset.Ico (cropMinima a).1 (cropMaxima a).1,
      (∑ j ∈ Finset.range a.n2, ∑ k ∈ Finset.range a.n3, a.val i j k)
        = ∑ j ∈ Finset.Ico (cropMinima a).2.1 (cropMaxima a).2.1,
            ∑ k ∈ Finset.Ico (cropMinima a).2.2 (cropMaxima a).2.2, a.val i j k := by
    intro i hi
    have hin : i < a.n1 := by
      rw [Finset.mem_Ico] at hi
      omega
    have hj : (∑ j ∈ Finset.range a.n2, ∑ k ∈ Finset.range a.n3, a.val i j k)
        = ∑ j ∈ Finset.Ico (cropMinima a).2.1 (cropMaxima a).2.1,
            ∑ k ∈ Finset.range a.n3, a.val i j k := by
      symm
      apply Finset.sum_subset
      · intro x hx
        rw [Finset.mem_Ico] at hx
        rw [Finset.mem_range]
        omega
      · intro j hjr hnot
        apply Finset.sum_eq_zero
        intro k hk
        apply zero_outside hin (Finset.mem_range.mp hjr) (Finset.mem_range.mp hk)
        rw [Finset.mem_Ico] at hnot
        omega
    rw [hj]
    apply Finset.sum_congr rfl
    intro j hj2
    have hjn : j < a.n2 := by
      rw [Finset.mem_Ico] at hj2
      omega
    symm
    apply Finset.sum_subset
    · intro x hx
      rw [Finset.mem_Ico] at hx
      rw [Finset.mem_range]
      omega
    · intro k hkr hnot
      apply zero_outside hin hjn (Finset.mem_range.mp hkr)
      rw [Finset.mem_Ico] at hnot
      omega
  rw [houter, Finset.sum_congr rfl hinner, hcrop]
  rw [Finset.sum_Ico_eq_sum_range]
  apply Finset.sum_congr rfl
  intro i _
  rw [Finset.sum_Ico_eq_sum_range]
  apply Finset.sum_congr rfl
  intro j _
  rw [Finset.sum_Ico_eq_sum_range]

/-- C10: for every 3-dimensional array with at least one non-zero element,
`crop_segmentation` returns the sub-array spanned by the minimal and
maximal non-zero indices along each axis: every non-zero element lies
inside the crop box and keeps its value there, the total sum is preserved,
and every boundary slice of the cropped array along each axis contains at
least one non-zero element. -/
theorem crop_segmentation_spec (a : Arr3) (h : nonzeroTriples a ≠ []) :
    (∀ i j k, i < a.n1 → j < a.n2 → k < a.n3 → a.val i j k ≠ 0 →
      (cropMinima a).1 ≤ i ∧ i < (cropMaxima a).1
      ∧ (cropMinima a).2.1 ≤ j ∧ j < (cropMaxima a).2.1
      ∧ (cropMinima a).2.2 ≤ k ∧ k < (cropMaxima a).2.2
      ∧ (crop_segmentation a).val (i - (cropMinima a).1) (j - (cropMinima a).2.1)
          (k - (cropMinima a).2.2) = a.val i j k)
    ∧ sum3 (crop_segmentation a) = sum3 a
    ∧ (∃ j k, j < (crop_segmentation a).n2 ∧ k < (crop_segmentation a).n3
        ∧ (crop_segmentation a).val 0 j k ≠ 0)
    ∧ (∃ j k, j < (crop_segmentation a).n2 ∧ k < (crop_segmentation a).n3
        ∧ (crop_segmentation a).val ((crop_segmentation a).n1 - 1) j k ≠ 0)
    ∧ (∃ i k, i < (crop_segmentation a).n1 ∧ k < (crop_segmentation a).n3
        ∧ (crop_segmentation a).val i 0 k ≠ 0)
    ∧ (∃ i k, i < (crop_segmentation a).n1 ∧ k < (crop_segmentation a).n3
        ∧ (crop_segmentation a).val i ((crop_segmentation a).n2 - 1) k ≠ 0)
    ∧ (∃ i j, i < (crop_segmentation a).n1 ∧ j < (crop_segmentation a).n2
        ∧ (crop_segmentation a).val i j 0 ≠ 0)
    ∧ (∃ i j, i < (crop_segmentation a).n1 ∧ j < (crop_segmentation a).n2
        ∧ (crop_segmentation a).val i j ((crop_segmentation a).n3 - 1) ≠ 0) := by
  have hm1 : (cropMinima a).1
      = foldMin 0 ((nonzeroTriples a).map (fun t : ℕ × ℕ × ℕ => t.1)) := rfl
  have hm2 : (cropMinima a).2.1
      = foldMin 0 ((nonzeroTriples a).map (fun t : ℕ × ℕ × ℕ => t.2.1)) := rfl
  have hm3 : (cropMinima a).2.2
      = foldMin 0 ((nonzeroTriples a).map (fun t : ℕ × ℕ × ℕ => t.2.2)) := rfl
  have hx1 : (cropMaxima a).1
      = foldMax 0 ((nonzeroTriples a).map (fun t : ℕ × ℕ × ℕ => t.1)) + 1 := rfl
  have hx2 : (cropMaxima a).2.1
      = foldMax 0 ((nonzeroTriples a).map (fun t : ℕ × ℕ × ℕ => t.2.1)) + 1 := rfl
  have hx3 : (cropMaxima a).2.2
      = foldMax 0 ((nonzeroTriples a).map (fun t : ℕ × ℕ × ℕ => t.2.2)) + 1 := rfl
  refine ⟨?_, sum3_crop a h, ?_, ?_, ?_, ?_, ?_, ?_⟩
  · intro i j k h1 h2 h3 hnz
    obtain ⟨b1, b2, b3, b4, b5, b6⟩ := nonzero_bounds h1 h2 h3 hnz
    refine ⟨b1, b2, b3, b4, b5, b6, ?_⟩
    rw [crop_val, show (cropMinima a).1 + (i - (cropMinima a).1) = i from by omega,
      show (cropMinima a).2.1 + (j - (cropMinima a).2.1) = j from by omega,
      show (cropMinima a).2.2 + (k - (cropMinima a).2.2) = k from by omega]
  · obtain ⟨t, ht, heq⟩ := exists_attained_min (fun t : ℕ × ℕ × ℕ => t.1) h
    rcases t with ⟨ti, tj, tk⟩
    obtain ⟨⟨h1, h2, h3⟩, hnz⟩ := mem_nonzeroTriples.mp ht
    dsimp only at heq h1 h2 h3 hnz
    obtain ⟨b1, b2, b3, b4, b5, b6⟩ := nonzero_bounds h1 h2 h3 hnz
    refine ⟨tj - (cropMinima a).2.1, tk - (cropMinima a).2.2,
      by rw [crop_n2]; omega, by rw [crop_n3]; omega, ?_⟩
    rw [crop_val,
      show (cropMinima a).1 + 0 = ti from by simp only [hm1] at *; omega,
      show (cropMinima a).2.1 + (tj - (cropMinima a).2.1) = tj from by omega,
      show (cropMinima a).2.2 + (tk - (cropMinima a).2.2) = tk from by omega]
    exact hnz
  · obtain ⟨t, ht, heq⟩ := exists_attained_max (fun t : ℕ × ℕ × ℕ => t.1) h
    rcases t with ⟨ti, tj, tk⟩
    obtain ⟨⟨h1, h2, h3⟩, hnz⟩ := mem_nonzeroTriples.mp ht
    dsimp only at heq h1 h2 h3 hnz
    obtain ⟨b1, b2, b3, b4, b5, b6⟩ := nonzero_bounds h1 h2 h3 hnz
    refine ⟨tj - (cropMinima a).2.1, tk - (cropMinima a).2.2,
      by rw [crop_n2]; omega, by rw [crop_n3]; omega, ?_⟩
    rw [crop_val, crop_n1,
      show (cropMinima a).1 + ((cropMaxima a).1 - (cropMinima a).1 - 1) = ti from by
        simp only [hx1] at *; omega,
      show (cropMinima a).2.1 + (tj - (cropMinima a).2.1) = tj from by omega,
      show (cropMinima a).2.2 + (tk - (cropMinima a).2.2) = tk from by omega]
    exact hnz
  · obtain ⟨t, ht, heq⟩ := exists_attained_min (fun t : ℕ × ℕ × ℕ => t.2.1) h
    rcases t with ⟨ti, tj, tk⟩
    obtain ⟨⟨h1, h2, h3⟩, hnz⟩ := mem_nonzeroTriples.mp ht
    dsimp only at heq h1 h2 h3 hnz
    obtain ⟨b1, b2, b3, b4, b5, b6⟩ := nonzero_bounds h1 h2 h3 hnz
    refine ⟨ti - (cropMinima a).1, tk - (cropMinima a).2.2,
      by rw [crop_n1]; omega, by rw [crop_n3]; omega, ?_⟩
    rw [crop_val,
      show (cropMinima a).1 + (ti - (cropMinima a).1) = ti from by omega,
      show (cropMinima a).2.1 + 0 = tj from by simp only [hm2] at *; omega,
      show (cropMinima a).2.2 + (tk - (cropMinima a).2.2) = tk from by omega]
    exact hnz
  · obtain ⟨t, ht, heq⟩ := exists_attained_max (fun t : ℕ × ℕ × ℕ => t.2.1) h
    rcases t with ⟨ti, tj, tk⟩
    obtain ⟨⟨h1, h2, h3⟩, hnz⟩ := mem_nonzeroTriples.mp ht
    dsimp only at heq h1 h2 h3 hnz
    obtain ⟨b1, b2, b3, b4, b5, b6⟩ := nonzero_bounds h1 h2 h3 hnz
    refine ⟨ti - (cropMinima a).1, tk - (cropMinima a).2.2,
      by rw [crop_n1]; omega, by rw [crop_n3]; omega, ?_⟩
    rw [crop_val, crop_n2,
      show (cropMinima a).1 + (ti - (cropMinima a).1) = ti from by omega,
      show (cropMinima a).2.1 + ((cropMaxima a).2.1 - (cropMinima a).2.1 - 1) = tj from by
        simp only [hx2] at *; omega,
      show (cropMinima a).2.2 + (tk - (cropMinima a).2.2) = tk from by omega]
    exact hnz
  · obtain ⟨t, ht, heq⟩ := exists_attained_min (fun t : ℕ × ℕ × ℕ => t.2.2) h
    rcases t with ⟨ti, tj, tk⟩
    obtain ⟨⟨h1, h2, h3⟩, hnz⟩ := mem_nonzeroTriples.mp ht
    dsimp only at heq h1 h2 h3 hnz
    obtain ⟨b1, b2, b3, b4, b5, b6⟩ := nonzero_bounds h1 h2 h3 hnz
    refine ⟨ti - (cropMinima a).1, tj - (cropMinima a).2.1,
      by rw [crop_n1]; omega, by rw [crop_n2]; omega, ?_⟩
    rw [crop_val,
      show (cropMinima a).1 + (ti - (cropMinima a).1) = ti from by omega,
      show (cropMinima a).2.1 + (tj - (cropMinima a).2.1) = tj from by omega,
      show (cropMinima a).2.2 + 0 = tk from by simp only [hm3] at *; omega]
    exact hnz
  · obtain ⟨t, ht, heq⟩ := exists_attained_max (fun t : ℕ × ℕ × ℕ => t.2.2) h
    rcases t with ⟨ti, tj, tk⟩
    obtain ⟨⟨h1, h2, h3⟩, hnz⟩ := mem_nonzeroTriples.mp ht
    dsimp only at heq h1 h2 h3 hnz
    obtain ⟨b1, b2, b3, b4, b5, b6⟩ := nonzero_bounds h1 h2 h3 hnz
    refine ⟨ti - (cropMinima a).1, tj - (cropMinima a).2.1,
      by rw [crop_n1]; omega, by rw [crop_n2]; omega, ?_⟩
    rw [crop_val, crop_n3,
      show (cropMinima a).1 + (ti - (cropMinima a).1) = ti from by omega,
      show (cropMinima a).2.1 + (tj - (cropMinima a).2.1) = tj from by omega,
      show (cropMinima a).2.2 + ((cropMaxima a).2.2 - (cropMinima a).2.2 - 1) = tk from by
        simp only [hx3] at *; omega]
    exact hnz

/-- A concrete 2×2×2 segmentation with a single non-zero voxel at
`(0, 1, 0)`, used to instantiate `crop_segmentation_spec`. -/
def cropWitnessArr : Arr3 :=
  ⟨2, 2, 2, fun i j k => if i = 0 ∧ j = 1 ∧ k = 0 then 5 else 0⟩

/-- Witness for `crop_segmentation_spec` at a concrete array. -/
theorem crop_segmentation_spec_witness :
    nonzeroTriples cropWitnessArr ≠ []
    ∧ ((∀ i j k, i < cropWitnessArr.n1 → j < cropWitnessArr.n2 → k < cropWitnessArr.n3 →
          cropWitnessArr.val i j k ≠ 0 →
        (cropMinima cropWitnessArr).1 ≤ i ∧ i < (cropMaxima cropWitnessArr).1
        ∧ (cropMinima cropWitnessArr).2.1 ≤ j ∧ j < (cropMaxima cropWitnessArr).2.1
        ∧ (cropMinima cropWitnessArr).2.2 ≤ k ∧ k < (cropMaxima cropWitnessArr).2.2
        ∧ (crop_segmentation cropWitnessArr).val (i - (cropMinima cropWitnessArr).1)
            (j - (cropMinima cropWitnessArr).2.1)
            (k - (cropMinima cropWitnessArr).2.2) = cropWitnessArr.val i j k)
      ∧ sum3 (crop_segmentation cropWitnessArr) = sum3 cropWitnessArr
      ∧ (∃ j k, j < (crop_segmentation cropWitnessArr).n2
          ∧ k < (crop_segmentation cropWitnessArr).n3
          ∧ (crop_segmentation cropWitnessArr).val 0 j k ≠ 0)
      ∧ (∃ j k, j < (crop_segmentation cropWitnessArr).n2
          ∧ k < (crop_segmentation cropWitnessArr).n3
          ∧ (crop_segmentation cropWitnessArr).val
              ((crop_segmentation cropWitnessArr).n1 - 1) j k ≠ 0)
      ∧ (∃ i k, i < (crop_segmentation cropWitnessArr).n1
          ∧ k < (crop_segmentation cropWitnessArr).n3
          ∧ (crop_segmentation cropWitnessArr).val i 0 k ≠ 0)
      ∧ (∃ i k, i < (crop_segmentation cropWitnessArr).n1
          ∧ k < (crop_segmentation cropWitnessArr).n3
          ∧ (crop_segmentation cropWitnessArr).val i
              ((crop_segmentation cropWitnessArr).n2 - 1) k ≠ 0)
      ∧ (∃ i j, i < (crop_segmentation cropWitnessArr).n1
          ∧ j < (crop_segmentation cropWitnessArr).n2
          ∧ (crop_segmentation cropWitnessArr).val i j 0 ≠ 0)
      ∧ (∃ i j, i < (crop_segmentation cropWitnessArr).n1
          ∧ j < (crop_segmentation cropWitnessArr).n2
          ∧ (crop_segmentation cropWitnessArr).val i j
              ((crop_segmentation cropWitnessArr).n3 - 1) ≠ 0)) :=
  ⟨by decide, crop_segmentation_spec cropWitnessArr (by decide)⟩
